import Mathlib

/-!
# Conformal-map point generator (`internal/handlers/compute.go`)

A shallow embedding of the Go handler package: the complex arithmetic and the
transform `mapZtoW`, the point factory `generatePoint`, the sequential engine,
the parallel engine (as an interleaving transition system) and the request
handler `processCompute`.

## Numbers

`float64` values are modelled exactly.  Every finite binary64 number is an
integer multiple of `2^-1074`, so a finite value is stored as a sign and a
natural number of such units; the arithmetic operations compute the exact
result and round it to nearest, ties to even, each operation rounded on its
own.  Every `float64` is a term of `F64`; `F64` also has finite terms with more
than 53 significant bits, which no operation returns, and what is proved for
all of `F64` holds for them too.  Go's `int` is a 64-bit two's complement
integer: arithmetic that can overflow goes through `wrap64`.

## Allocation

`make` panics when the size it is asked for is negative or exceeds the
runtime's allocation limit; both engines call it with a size computed from the
request, so these panics are part of the model (`makeSlicePanics`,
`makeChanPanics`), for a 64-bit platform.  A machine that runs out of memory
below that limit is not modelled.

The functions of Go's `math` package the program calls (`Hypot`, `Atan2`,
`Pow`, `Cos`, `Sin`) and the `%.2f` formatting verb are not part of the
repository; they are taken as a parameter `Lib`.
-/

namespace Conformal

/-! ## float64 -/

/-- A `float64`: NaN, an infinity, or a finite value `(-1)^neg * n * 2^-1074`. -/
inductive F64 where
  | nan : F64
  | inf (neg : Bool) : F64
  | fin (neg : Bool) (n : Nat) : F64
deriving DecidableEq, Repr

namespace F64

/-- Number of units (`2^-1074`) in `1.0`. -/
@[irreducible]
def one_units : Nat := 2 ^ 1074

/-- First magnitude (in units) that no longer is a finite `float64`: `2^1024`. -/
@[irreducible]
def overflow_units : Nat := 2 ^ 2098

/-- Bit length of `n < 2^(2^levels)` by binary search. -/
def bitLenBin : Nat → Nat → Nat
  | 0, n => if n = 0 then 0 else 1
  | k + 1, n => if 2 ^ (2 ^ k) ≤ n then 2 ^ k + bitLenBin k (n / 2 ^ (2 ^ k)) else bitLenBin k n

/-- The number `2^4096`. -/
@[irreducible]
def chunk : Nat := 2 ^ 4096

/-- Bit length: 4096 bits are split off while there are that many; `fuel` bounds the
number of such steps. -/
def bitLenAux : Nat → Nat → Nat
  | 0, n => bitLenBin 12 n
  | fuel + 1, n =>
    if chunk ≤ n then 4096 + bitLenAux fuel (n / chunk) else bitLenBin 12 n

/-- Bit length of `n`: `0` for `0`, otherwise `⌊log₂ n⌋ + 1`. -/
def bitLen (n : Nat) : Nat := bitLenAux n n

/-- Round the exact magnitude `(N + σ) / 2^k` units to a `float64`, to nearest
with ties to even; `σ` is a fraction in `[0, 1)` that is non-zero exactly when
`sticky` is set.  A caller that sets `sticky` passes `k ≥ 1`. -/
@[irreducible]
def round (neg : Bool) (N k : Nat) (sticky : Bool) : F64 :=
  let t := bitLen N - k - 53
  let sh := k + t
  let q := N / 2 ^ sh
  let r := N % 2 ^ sh
  let half := 2 ^ (sh - 1)
  let up := decide (0 < sh) && (decide (half < r) || (decide (r = half) && (sticky || decide (q % 2 = 1))))
  let n := (if up then q + 1 else q) * 2 ^ t
  if overflow_units ≤ n then inf neg else fin neg n

/-- The `float64` nearest to the rational `num / den` (`den ≠ 0`), with the given sign. -/
def ofRat (neg : Bool) (num den : Nat) : F64 :=
  round neg (num * 2 ^ 1075 / den) 1 (decide (num * 2 ^ 1075 % den ≠ 0))

/-- Conversion of a natural number, `float64(n)`. -/
def ofNat (n : Nat) : F64 := round false (n * one_units) 0 false

def zero : F64 := fin false 0
def one : F64 := fin false one_units

def isNaN : F64 → Bool
  | nan => true
  | _ => false

/-- The function `math.IsInf(f, sign)`: `sign > 0` asks for `+Inf`, `sign < 0` for `-Inf`,
`sign = 0` for either. -/
def isInf (f : F64) (sign : Int) : Bool :=
  match f with
  | inf neg => (decide (0 ≤ sign) && !neg) || (decide (sign ≤ 0) && neg)
  | _ => false

/-- The function `math.Signbit`. -/
def signbit : F64 → Bool
  | nan => false
  | inf s => s
  | fin s _ => s

/-- The function `math.Copysign(f, sign)` for a `sign` that is not NaN. -/
def copysign (f sign : F64) : F64 :=
  match f with
  | nan => nan
  | inf _ => inf (signbit sign)
  | fin _ n => fin (signbit sign) n

def neg : F64 → F64
  | nan => nan
  | inf s => inf (!s)
  | fin s n => fin (!s) n

/-- The function `math.Abs`. -/
def abs : F64 → F64
  | nan => nan
  | inf _ => inf false
  | fin _ n => fin false n

def add : F64 → F64 → F64
  | nan, _ => nan
  | _, nan => nan
  | inf a, inf b => if a = b then inf a else nan
  | inf a, fin _ _ => inf a
  | fin _ _, inf b => inf b
  | fin s1 n1, fin s2 n2 =>
    if s1 = s2 then round s1 (n1 + n2) 0 false
    else if n1 = n2 then fin false 0
    else if n2 < n1 then round s1 (n1 - n2) 0 false
    else round s2 (n2 - n1) 0 false

def sub (a b : F64) : F64 := add a (neg b)

def mul : F64 → F64 → F64
  | nan, _ => nan
  | _, nan => nan
  | inf a, inf b => inf (xor a b)
  | inf a, fin s n => if n = 0 then nan else inf (xor a s)
  | fin s n, inf b => if n = 0 then nan else inf (xor s b)
  | fin s1 n1, fin s2 n2 => round (xor s1 s2) (n1 * n2) 1074 false

def div : F64 → F64 → F64
  | nan, _ => nan
  | _, nan => nan
  | inf _, inf _ => nan
  | inf a, fin s _ => inf (xor a s)
  | fin s _, inf b => fin (xor s b) 0
  | fin s1 n1, fin s2 n2 =>
    if n2 = 0 then (if n1 = 0 then nan else inf (xor s1 s2))
    else ofRat (xor s1 s2) n1 n2

/-- Signed number of units of a finite value. -/
def sval (s : Bool) (n : Nat) : Int := if s then -(n : Int) else (n : Int)

/-- The comparison `a < b` of Go (false when either side is NaN). -/
def lt : F64 → F64 → Bool
  | nan, _ => false
  | _, nan => false
  | inf a, inf b => a && !b
  | inf a, fin _ _ => a
  | fin _ _, inf b => !b
  | fin s1 n1, fin s2 n2 => decide (sval s1 n1 < sval s2 n2)

/-- The comparison `a > b` of Go. -/
def gt (a b : F64) : Bool := lt b a

/-- The comparison `a == b` of Go (false when either side is NaN, `+0 == -0`). -/
def eq : F64 → F64 → Bool
  | nan, _ => false
  | _, nan => false
  | inf a, inf b => a == b
  | inf _, fin _ _ => false
  | fin _ _, inf _ => false
  | fin s1 n1, fin s2 n2 => decide (sval s1 n1 = sval s2 n2)

/-- Newton iteration for the integer square root, from a guess `x ≥ ⌊√n⌋`. -/
def isqrtAux : Nat → Nat → Nat → Nat
  | 0, _, x => x
  | fuel + 1, n, x =>
    let y := (x + n / x) / 2
    if y < x then isqrtAux fuel n y else x

/-- Integer square root `⌊√n⌋`. -/
def isqrt (n : Nat) : Nat :=
  if n = 0 then 0 else isqrtAux (bitLen n + 2) n (2 ^ ((bitLen n + 1) / 2))

/-- Correctly rounded square root (`math.Sqrt`). -/
def sqrt : F64 → F64
  | nan => nan
  | inf s => if s then nan else inf false
  | fin s n =>
    if n = 0 then fin s 0
    else if s then nan
    else
      let N := n * 2 ^ 1076
      let Q := isqrt N
      round false Q 1 (decide (Q * Q ≠ N))

end F64

/-! ## The library functions the program calls -/

/-- The functions of Go's standard library used by the handlers: `math.Hypot`, `math.Atan2`,
`math.Pow`, `math.Cos`, `math.Sin`, and the `%.2f` verb of `fmt.Sprintf`. -/
structure Lib where
  Hypot : F64 → F64 → F64
  Atan2 : F64 → F64 → F64
  Pow : F64 → F64 → F64
  Cos : F64 → F64
  Sin : F64 → F64
  Fmt2f : F64 → String

/-- State of a `*rand.Rand`: the stream of values its `Float64` method is going to return. -/
structure Rand where
  draws : Nat → F64

/-- The method `rng.Float64()`: the next value and the advanced generator. -/
def Rand.Float64 (r : Rand) : F64 × Rand := (r.draws 0, ⟨fun i => r.draws (i + 1)⟩)

/-! ## Data -/

structure complexNumber where
  Re : F64
  Im : F64
deriving DecidableEq, Repr

structure point where
  Z : complexNumber
  W : complexNumber
  Color : String
deriving DecidableEq, Repr

structure computeRequest where
  Count : Int
deriving DecidableEq, Repr

structure computeResponse where
  Mode : String
  DurationMs : Int
  Points : List point
  Count : Int
  Requested : Int
deriving DecidableEq, Repr

/-- Zero value `complexNumber{}`. -/
def complexNumber.zeroValue : complexNumber := ⟨F64.zero, F64.zero⟩

/-- Zero value `point{}`. -/
def point.zeroValue : point := ⟨complexNumber.zeroValue, complexNumber.zeroValue, ""⟩

/-! ## Machine integers -/

/-- Two's complement wrap-around of a 64-bit `int`. -/
def wrap64 (x : Int) : Int := (x + 2 ^ 63) % 2 ^ 64 - 2 ^ 63

def extraWorkIterations : Nat := 250

/-! ## Allocation limits of the runtime -/

/-- Size in bytes of a `point` on a 64-bit platform: four `float64` (32 bytes) and a string
header (16 bytes). -/
def pointSize : Int := 48

/-- The limit `maxAlloc` of the runtime on a 64-bit platform (48 address bits). -/
def maxAlloc : Int := 2 ^ 48

/-- Size in bytes of the channel header the runtime allocates in front of the buffer. -/
def hchanSize : Int := 96

/-- Whether `make([]point, 0, n)` panics (`makeslice: cap out of range`): the capacity is
negative or its size in bytes exceeds `maxAlloc`. -/
def makeSlicePanics (n : Int) : Bool := decide (n < 0 ∨ maxAlloc < n * pointSize)

/-- Whether `make(chan point, n)` panics (`makechan: size out of range`): the size is negative
or the buffer does not fit below `maxAlloc` together with the channel header. -/
def makeChanPanics (n : Int) : Bool := decide (n < 0 ∨ maxAlloc - hchanSize < n * pointSize)

/-! ## Complex arithmetic and the transform -/

def modulus (L : Lib) (z : complexNumber) : F64 := L.Hypot z.Re z.Im

def divide (a b : complexNumber) : complexNumber :=
  let den := F64.add (F64.mul b.Re b.Re) (F64.mul b.Im b.Im)
  if F64.eq den F64.zero then ⟨F64.inf false, F64.inf false⟩
  else
    ⟨F64.div (F64.add (F64.mul a.Re b.Re) (F64.mul a.Im b.Im)) den,
     F64.div (F64.sub (F64.mul a.Im b.Re) (F64.mul a.Re b.Im)) den⟩

def multiply (a b : complexNumber) : complexNumber :=
  ⟨F64.sub (F64.mul a.Re b.Re) (F64.mul a.Im b.Im),
   F64.add (F64.mul a.Re b.Im) (F64.mul a.Im b.Re)⟩

def fourthRoot (L : Lib) (z : complexNumber) : complexNumber :=
  let r := modulus L z
  let phi := L.Atan2 z.Im z.Re
  let rNew := L.Pow r (F64.ofRat false 25 100)
  let phiNew := F64.div phi (F64.ofNat 4)
  ⟨F64.mul rNew (L.Cos phiNew), F64.mul rNew (L.Sin phiNew)⟩

/-- The threshold `0.0001` of `mapZtoW`. -/
def epsilon : F64 := F64.ofRat false 1 10000

def mapZtoW (L : Lib) (z : complexNumber) : complexNumber × Bool :=
  let iz : complexNumber := ⟨F64.neg z.Im, z.Re⟩
  let den : complexNumber := ⟨F64.add iz.Re F64.one, iz.Im⟩
  if F64.lt (modulus L den) epsilon then (complexNumber.zeroValue, false)
  else
    let frac := divide iz den
    let root := fourthRoot L frac
    let result := multiply root ⟨F64.zero, F64.one⟩
    if F64.isInf result.Re 0 || F64.isInf result.Im 0 || F64.isNaN result.Re || F64.isNaN result.Im then
      (complexNumber.zeroValue, false)
    else (result, true)

/-- The constant `math.Pi`, converted to `float64`. -/
def pi64 : F64 :=
  F64.ofRat false 314159265358979323846264338327950288419716939937510582097494459 (10 ^ 62)

/-- The constant expression `2 * math.Pi`, converted to `float64`. -/
def twoPi64 : F64 :=
  F64.ofRat false (2 * 314159265358979323846264338327950288419716939937510582097494459) (10 ^ 62)

def colorFor (L : Lib) (z : complexNumber) : String :=
  let angle := L.Atan2 z.Im z.Re
  let hue := F64.mul (F64.div (F64.add angle pi64) twoPi64) (F64.ofNat 360)
  "hsla(" ++ L.Fmt2f hue ++ ", 100%, 60%, 0.8)"

/-- The accumulator of the busy loop in `mapAndDecorate`; its value is discarded. -/
def extraWork (L : Lib) (w : complexNumber) : F64 :=
  (List.range extraWorkIterations).foldl
    (fun acc i =>
      let f := F64.mul epsilon (F64.ofNat (i + 1))
      F64.add acc (F64.add (L.Sin (F64.mul w.Re f)) (L.Cos (F64.mul w.Im f))))
    F64.zero

def mapAndDecorate (L : Lib) (z : complexNumber) : point × Bool :=
  let r := mapZtoW L z
  if !r.2 then (point.zeroValue, false)
  else
    let _acc := extraWork L r.1
    (⟨z, r.1, colorFor L z⟩, true)

def generatePoint (L : Lib) (rng : Rand) : (point × Bool) × Rand :=
  let d1 := rng.Float64
  let re := F64.add (F64.neg (F64.ofNat 4)) (F64.mul d1.1 (F64.ofNat 8))
  let d2 := d1.2.Float64
  let im := F64.add (F64.neg (F64.ofNat 2)) (F64.mul d2.1 (F64.ofNat 7))
  if F64.lt (F64.abs re) (F64.ofRat false 5 100) &&
      F64.gt im (F64.ofRat true 5 100) && F64.lt im (F64.ofRat false 105 100) then
    ((point.zeroValue, false), d2.2)
  else
    (mapAndDecorate L ⟨re, im⟩, d2.2)

/-! ## Request normalisation and the mode tag -/

def normalizeCount (val : Int) : Int :=
  if val ≤ 0 then 5000
  else if val < 100 then 100
  else if val > 1000000000 then 1000000000
  else val

def modeName (parallel : Bool) : String :=
  if parallel then "parallel" else "single-thread"

/-! ## Sequential engine -/

/-- State of the loop of `generateAndMapSequential`. -/
structure SeqState where
  points : List point
  attempts : Int
  rng : Rand

/-- The loop `for len(points) < count && attempts < limit`; `fuel` bounds the number of
iterations. -/
def seqLoop (L : Lib) (count limit : Int) : Nat → SeqState → SeqState
  | 0, s => s
  | fuel + 1, s =>
    if (s.points.length : Int) < count ∧ s.attempts < limit then
      let attempts := s.attempts + 1
      let g := generatePoint L s.rng
      if g.1.2 then seqLoop L count limit fuel ⟨s.points ++ [g.1.1], attempts, g.2⟩
      else seqLoop L count limit fuel ⟨s.points, attempts, g.2⟩
    else s

/-- Final loop state of `generateAndMapSequential`.  The loop runs at most `limit` times, so
`limit` iterations of fuel are enough. -/
def seqRun (L : Lib) (rng : Rand) (count : Int) : SeqState :=
  let limit := wrap64 (count * 15)
  seqLoop L count limit limit.toNat ⟨[], 0, rng⟩

/-- The sequential engine; `none` is the run-time panic of `make([]point, 0, count)`. -/
def generateAndMapSequential (L : Lib) (rng : Rand) (count : Int) : Option (List point) :=
  if makeSlicePanics count then none else some (seqRun L rng count).points

/-! ## Parallel engine

The goroutines of `generateAndMapParallel` as an interleaving transition system.  A worker
is at one of the program points below; one step of a worker executes the statement at its
program point.  The two counters are shared and every access to them is one atomic step. -/

/-- Program points of a worker goroutine. -/
inductive PC where
  /-- About to evaluate `atomic.LoadInt64(&produced) >= target`. -/
  | check : PC
  /-- About to evaluate `atomic.AddInt64(&attempts, 1) > limit`. -/
  | attempt : PC
  /-- About to call `generatePoint(rng)`. -/
  | generate : PC
  /-- About to execute `current := atomic.AddInt64(&produced, 1)`, holding the point `p`. -/
  | count (p : point) : PC
  /-- About to evaluate `current > target`. -/
  | compare (p : point) (current : Int) : PC
  /-- About to execute `pointsCh <- p`. -/
  | send (p : point) : PC
  /-- Returned; the deferred `wg.Done()` has run. -/
  | done : PC

structure Worker where
  pc : PC
  rng : Rand

/-- State of one call of `generateAndMapParallel`. -/
structure ParState where
  attempts : Int
  produced : Int
  workers : List Worker
  /-- Buffer of `pointsCh`. -/
  chan : List point
  closed : Bool
  /-- The slice `points` the `range` loop appends to. -/
  points : List point
  /-- The `range` loop has ended and the function has returned `points`. -/
  returned : Bool
  /-- History variable: every point sent on `pointsCh` so far, in sending order. -/
  sent : List point

/-- One scheduling choice: a worker goroutine, the goroutine that waits and closes the
channel, or the `range` loop of the calling goroutine. -/
inductive Action where
  | worker (i : Nat) : Action
  | closer : Action
  | receive : Action
deriving DecidableEq, Repr

/-- Constants of one call. -/
structure ParCfg where
  target : Int
  limit : Int
  capacity : Int

def PC.isDone : PC → Bool
  | PC.done => true
  | _ => false

/-- One step of a worker; `none` when the worker cannot move (it has returned, or it is
blocked on a full channel). -/
def workerStep (L : Lib) (c : ParCfg) (s : ParState) (i : Nat) (w : Worker) : Option ParState :=
  match w.pc with
  | PC.check =>
    if s.produced ≥ c.target then some { s with workers := s.workers.set i ⟨PC.done, w.rng⟩ }
    else some { s with workers := s.workers.set i ⟨PC.attempt, w.rng⟩ }
  | PC.attempt =>
    let a := wrap64 (s.attempts + 1)
    if a > c.limit then some { s with attempts := a, workers := s.workers.set i ⟨PC.done, w.rng⟩ }
    else some { s with attempts := a, workers := s.workers.set i ⟨PC.generate, w.rng⟩ }
  | PC.generate =>
    let g := generatePoint L w.rng
    if !g.1.2 then some { s with workers := s.workers.set i ⟨PC.check, g.2⟩ }
    else some { s with workers := s.workers.set i ⟨PC.count g.1.1, g.2⟩ }
  | PC.count p =>
    let current := wrap64 (s.produced + 1)
    some { s with produced := current, workers := s.workers.set i ⟨PC.compare p current, w.rng⟩ }
  | PC.compare p current =>
    if current > c.target then some { s with workers := s.workers.set i ⟨PC.done, w.rng⟩ }
    else some { s with workers := s.workers.set i ⟨PC.send p, w.rng⟩ }
  | PC.send p =>
    if (s.chan.length : Int) < c.capacity then
      some { s with chan := s.chan ++ [p], sent := s.sent ++ [p],
                    workers := s.workers.set i ⟨PC.check, w.rng⟩ }
    else none
  | PC.done => none

/-- One step of the system; `none` when the chosen goroutine cannot move. -/
def parStep (L : Lib) (c : ParCfg) (s : ParState) : Action → Option ParState
  | Action.worker i =>
    match s.workers.get? i with
    | some w => workerStep L c s i w
    | none => none
  | Action.closer =>
    if s.workers.all (fun w => w.pc.isDone) && !s.closed then some { s with closed := true }
    else none
  | Action.receive =>
    if s.returned then none
    else
      match s.chan with
      | p :: rest => some { s with chan := rest, points := s.points ++ [p] }
      | [] => if s.closed then some { s with returned := true } else none

/-- Run a schedule from a state. -/
def parRun (L : Lib) (c : ParCfg) : ParState → List Action → Option ParState
  | s, [] => some s
  | s, a :: rest =>
    match parStep L c s a with
    | some s' => parRun L c s' rest
    | none => none

/-- The number of workers: `runtime.NumCPU()`, at least 2, at most `count`. -/
def workerCount (numCPU count : Int) : Int :=
  let w := if numCPU < 2 then 2 else numCPU
  if w > count then count else w

def parCfg (numCPU count : Int) : ParCfg :=
  { target := count, limit := wrap64 (count * 20), capacity := wrap64 (workerCount numCPU count * 4) }

/-- State after the goroutines have been started; worker `i` owns the generator `seeds i`. -/
def parInit (numCPU count : Int) (seeds : Nat → Rand) : ParState :=
  { attempts := 0, produced := 0,
    workers := (List.range (workerCount numCPU count).toNat).map (fun i => ⟨PC.check, seeds i⟩),
    chan := [], closed := false, points := [], returned := false, sent := [] }

/-- The parallel engine under the schedule `sched`: the returned slice when `sched` is an
execution that runs until the function returns, `none` when it is not, and `none` when
`make(chan point, workerCount*4)` or `make([]point, 0, count)` panics. -/
def generateAndMapParallel (L : Lib) (numCPU : Int) (seeds : Nat → Rand) (count : Int)
    (sched : List Action) : Option (List point) :=
  if makeChanPanics (parCfg numCPU count).capacity || makeSlicePanics count then none
  else
    match parRun L (parCfg numCPU count) (parInit numCPU count seeds) sched with
    | some s => if s.returned then some s.points else none
    | none => none

/-! ## The request handler -/

/-- What `processCompute` reads: the request method and the outcome of decoding the body
(`none` when `Decode` fails). -/
structure HttpRequest where
  Method : String
  Body : Option computeRequest

/-- What `processCompute` does not compute from the request: the generators, the machine, the
scheduler and the clock. -/
structure RunEnv where
  rng : Rand
  seeds : Nat → Rand
  numCPU : Int
  sched : List Action
  durationMs : Int

/-- What `processCompute` writes. -/
inductive Reply where
  | error (msg : String) (status : Nat) : Reply
  | json (resp : computeResponse) : Reply

/-- The handler; `none` when the engine does not return under `env`. -/
def processCompute (L : Lib) (env : RunEnv) (r : HttpRequest) (parallel : Bool) : Option Reply :=
  if r.Method ≠ "POST" then some (Reply.error "method not allowed" 405)
  else
    match r.Body with
    | none => some (Reply.error "invalid payload" 400)
    | some req =>
      let requested := req.Count
      let count := normalizeCount requested
      let result :=
        if parallel then generateAndMapParallel L env.numCPU env.seeds count env.sched
        else generateAndMapSequential L env.rng count
      match result with
      | none => none
      | some points =>
        some (Reply.json
          { Mode := modeName parallel, DurationMs := env.durationMs, Points := points,
            Count := points.length, Requested := requested })

/-! ## A concrete library for evaluating the program on sample inputs

`sampleLib` returns the value Go documents at the special arguments listed with each
function and computes `Hypot` and the fourth root exactly as described; at every other
argument it returns NaN.  It is used only to run the program on concrete inputs: the
theorems below hold for every `Lib`. -/

namespace Sample

/-- The algorithm of `math.Hypot`. -/
def Hypot (p q : F64) : F64 :=
  let p := F64.abs p
  let q := F64.abs q
  if F64.isInf p 1 || F64.isInf q 1 then F64.inf false
  else if F64.isNaN p || F64.isNaN q then F64.nan
  else
    let hi := if F64.lt p q then q else p
    let lo := if F64.lt p q then p else q
    if F64.eq hi F64.zero then F64.zero
    else
      let t := F64.div lo hi
      F64.mul hi (F64.sqrt (F64.add F64.one (F64.mul t t)))

/-- The special cases of `math.Atan2(y, x)`: an argument is NaN, zero or infinite. -/
def Atan2 (y x : F64) : F64 :=
  let pi2 := F64.ofRat false 314159265358979323846264338327950288419716939937510582097494459 (2 * 10 ^ 62)
  let pi4 := F64.ofRat false 314159265358979323846264338327950288419716939937510582097494459 (4 * 10 ^ 62)
  let pi34 := F64.ofRat false (3 * 314159265358979323846264338327950288419716939937510582097494459) (4 * 10 ^ 62)
  if F64.isNaN x || F64.isNaN y then F64.nan
  else if F64.eq y F64.zero then
    (if !F64.lt x F64.zero && !F64.signbit x then F64.copysign F64.zero y else F64.copysign pi64 y)
  else if F64.eq x F64.zero then F64.copysign pi2 y
  else if F64.isInf x 0 then
    (if F64.isInf x 1 then (if F64.isInf y 0 then F64.copysign pi4 y else F64.copysign F64.zero y)
     else (if F64.isInf y 0 then F64.copysign pi34 y else F64.copysign pi64 y))
  else if F64.isInf y 0 then F64.copysign pi2 y
  else F64.nan

/-- The function `math.Pow(x, y)` for the exponent `y = 0.25`, the only one the program passes:
NaN for NaN and for finite `x < 0`, `+0` for `±0`, `+Inf` for `±Inf`, otherwise the correctly
rounded fourth root.  NaN for every other exponent. -/
def Pow (x y : F64) : F64 :=
  if y = F64.ofRat false 25 100 then
    match x with
    | F64.nan => F64.nan
    | F64.inf _ => F64.inf false
    | F64.fin s n =>
      if n = 0 then F64.zero
      else if s then F64.nan
      else
        let N := n * 2 ^ 3226
        let Q := F64.isqrt (F64.isqrt N)
        F64.round false Q 1 (decide (Q * Q * Q * Q ≠ N))
  else F64.nan

/-- The function `math.Cos` at the arguments `±0`, `±Inf`, NaN. -/
def Cos : F64 → F64
  | F64.fin _ 0 => F64.one
  | _ => F64.nan

/-- The function `math.Sin` at the arguments `±0`, `±Inf`, NaN. -/
def Sin : F64 → F64
  | F64.fin s 0 => F64.fin s 0
  | _ => F64.nan

/-- Decimal digits of `n`, at least `width` of them. -/
def digits : Nat → Nat → Nat → List Char
  | 0, _, _ => []
  | fuel + 1, n, width =>
    if n < 10 ∧ width ≤ 1 then [Char.ofNat (48 + n)]
    else digits fuel (n / 10) (width - 1) ++ [Char.ofNat (48 + n % 10)]

/-- The verb `%.2f`: two decimals, the exact value rounded to nearest, ties to even. -/
def Fmt2f : F64 → String
  | F64.nan => "NaN"
  | F64.inf s => if s then "-Inf" else "+Inf"
  | F64.fin s n =>
    let q := n * 100 / F64.one_units
    let r := n * 100 % F64.one_units
    let h := F64.one_units / 2
    let c := if h < r ∨ (r = h ∧ q % 2 = 1) then q + 1 else q
    let ds := digits (F64.bitLen c + 3) c 3
    String.mk ((if s then ['-'] else []) ++ ds.take (ds.length - 2) ++ ['.'] ++ ds.drop (ds.length - 2))

end Sample

def sampleLib : Lib :=
  { Hypot := Sample.Hypot, Atan2 := Sample.Atan2, Pow := Sample.Pow,
    Cos := Sample.Cos, Sin := Sample.Sin, Fmt2f := Sample.Fmt2f }

/-- A generator whose `Float64` returns `a, b, a, b, ...`. -/
def alternating (a b : F64) : Rand := ⟨fun i => if i % 2 = 0 then a else b⟩

/-! ## Attempt traces of the sequential engine -/

/-- The generator after `k` calls of `generatePoint`; each call draws twice. -/
def rngAfter (rng : Rand) (k : Nat) : Rand := ⟨fun i => rng.draws (i + 2 * k)⟩

/-- Result of the `k`-th call (counted from 0) of `generatePoint` on the generator `rng`. -/
def attemptResult (L : Lib) (rng : Rand) (k : Nat) : point × Bool :=
  (generatePoint L (rngAfter rng k)).1

/-- The points of the successful ones among the first `k` attempts, in order. -/
def successes (L : Lib) (rng : Rand) (k : Nat) : List point :=
  (List.range k).filterMap
    (fun i => if (attemptResult L rng i).2 then some (attemptResult L rng i).1 else none)

/-! ## Bookkeeping for the parallel engine -/

/-- The worker has passed the quota check of its current iteration and has not yet counted a
point: it is at the budget check, generating, or about to count. -/
def PC.passed : PC → Nat
  | PC.attempt => 1
  | PC.generate => 1
  | PC.count _ => 1
  | _ => 0

/-- The worker holds a counted point whose number is within the quota and which it has not
yet sent. -/
def PC.ticket (target : Int) : PC → Nat
  | PC.compare _ current => if current ≤ target then 1 else 0
  | PC.send _ => 1
  | _ => 0

/-- The worker has returned. -/
def PC.finished : PC → Nat
  | PC.done => 1
  | _ => 0

def passedCount (ws : List Worker) : Nat := (ws.map (fun w => w.pc.passed)).sum

def ticketCount (target : Int) (ws : List Worker) : Nat :=
  (ws.map (fun w => w.pc.ticket target)).sum

def finishedCount (ws : List Worker) : Nat := (ws.map (fun w => w.pc.finished)).sum

/-- Invariant of the parallel engine while the counter `produced` cannot wrap around. -/
structure ParInv (c : ParCfg) (s : ParState) : Prop where
  produced_nonneg : 0 ≤ s.produced
  produced_bound : s.produced + passedCount s.workers ≤ c.target + s.workers.length
  tickets : (s.sent.length : Int) + ticketCount c.target s.workers = min s.produced c.target
  chan_split : s.points ++ s.chan = s.sent
  closed_done : s.closed = true → ∀ w ∈ s.workers, w.pc = PC.done
  returned_closed : s.returned = true → s.closed = true ∧ s.chan = []

/-- Invariant of the parallel engine when the attempt budget is negative: no worker gets past
the budget check. -/
structure ParIdle (s : ParState) : Prop where
  produced_zero : s.produced = 0
  attempts_nonneg : 0 ≤ s.attempts
  attempts_bound : s.attempts ≤ finishedCount s.workers
  pcs : ∀ w ∈ s.workers, w.pc = PC.check ∨ w.pc = PC.attempt ∨ w.pc = PC.done
  nothing_sent : s.sent = [] ∧ s.chan = [] ∧ s.points = []

/-- The response carried by a reply, if it is one. -/
def Reply.response? : Reply → Option computeResponse
  | Reply.json resp => some resp
  | Reply.error _ _ => none

/-! ## Sample inputs -/

/-- A schedule for one worker that produces one point: the worker runs to its return, the
channel is closed, and the caller receives the point and leaves its loop. -/
def sampleSchedule : List Action :=
  [Action.worker 0, Action.worker 0, Action.worker 0, Action.worker 0, Action.worker 0,
   Action.worker 0, Action.worker 0, Action.closer, Action.receive, Action.receive]

/-- The number `0.5`. -/
def half : F64 := F64.ofRat false 1 2

/-- The point `z = (0, -1)`, that is `-i`. -/
def zMinusI : complexNumber := ⟨F64.zero, F64.neg F64.one⟩

/-- The point `z = (0, 1)`, that is `i`. -/
def zI : complexNumber := ⟨F64.zero, F64.one⟩

/-- The magnitude `2^-512`. -/
def tiny : F64 := F64.fin false (2 ^ 562)

/-- An environment with one CPU, generators that return `0.5, 0, 0.5, 0, ...` (every candidate
is `(0, -2)`, which is mapped), the schedule `sampleSchedule` and a clock that reads 0 ms. -/
def sampleEnv : RunEnv :=
  { rng := alternating half F64.zero, seeds := fun _ => alternating half F64.zero,
    numCPU := 1, sched := sampleSchedule, durationMs := 0 }

/-- A POST request with the body `{"count": 1}`. -/
def sampleRequest : HttpRequest := { Method := "POST", Body := some ⟨1⟩ }

/-! # Theorems -/

/-! ## The mode tag -/

/-- C6, counterexample: the tag of the sequential engine is not "sequential". -/
theorem modeName_false_ne_sequential : modeName false ≠ "sequential" := by decide

/-- C6, as the code has it: the sequential engine is tagged "single-thread", the parallel
engine "parallel". -/
theorem modeName_values : modeName false = "single-thread" ∧ modeName true = "parallel" :=
  ⟨rfl, rfl⟩

/-! ## The transform -/

/-- C1: when `mapZtoW` reports `ok = true`, neither component of the value it returns is NaN,
`+Inf` or `-Inf`, for every input (NaN and infinities included) and every math library. -/
theorem mapZtoW_ok_finite (L : Lib) (z : complexNumber) (h : (mapZtoW L z).2 = true) :
    ((mapZtoW L z).1.Re ≠ F64.nan ∧ (mapZtoW L z).1.Re ≠ F64.inf false ∧
        (mapZtoW L z).1.Re ≠ F64.inf true) ∧
      ((mapZtoW L z).1.Im ≠ F64.nan ∧ (mapZtoW L z).1.Im ≠ F64.inf false ∧
        (mapZtoW L z).1.Im ≠ F64.inf true) := by
  unfold mapZtoW at h ⊢
  simp only at h ⊢
  split at h
  · simp at h
  · split at h
    · simp at h
    · rename_i hg hfin
      rw [if_neg hg, if_neg hfin]
      simp only [Bool.or_eq_true, not_or, Bool.not_eq_true] at hfin
      obtain ⟨⟨⟨h1, h2⟩, h3⟩, h4⟩ := hfin
      refine ⟨⟨?_, ?_, ?_⟩, ⟨?_, ?_, ?_⟩⟩
      · intro e; rw [e] at h3; simp [F64.isNaN] at h3
      · intro e; rw [e] at h1; simp [F64.isInf] at h1
      · intro e; rw [e] at h1; simp [F64.isInf] at h1
      · intro e; rw [e] at h4; simp [F64.isNaN] at h4
      · intro e; rw [e] at h2; simp [F64.isInf] at h2
      · intro e; rw [e] at h2; simp [F64.isInf] at h2

/-- C1, witness: at `z = (0, -1)` with the sample library the map is defined. -/
theorem mapZtoW_ok_finite_witness :
    (mapZtoW sampleLib zMinusI).2 = true ∧
    (((mapZtoW sampleLib zMinusI).1.Re ≠ F64.nan ∧ (mapZtoW sampleLib zMinusI).1.Re ≠ F64.inf false ∧
        (mapZtoW sampleLib zMinusI).1.Re ≠ F64.inf true) ∧
      ((mapZtoW sampleLib zMinusI).1.Im ≠ F64.nan ∧ (mapZtoW sampleLib zMinusI).1.Im ≠ F64.inf false ∧
        (mapZtoW sampleLib zMinusI).1.Im ≠ F64.inf true)) :=
  ⟨by decide!, mapZtoW_ok_finite sampleLib zMinusI (by decide!)⟩

/-- The body of `mapZtoW`, with its local variables substituted. -/
theorem mapZtoW_unfold (L : Lib) (z : complexNumber) :
    mapZtoW L z =
      if F64.lt (L.Hypot (F64.add (F64.neg z.Im) F64.one) z.Re) epsilon then
        (complexNumber.zeroValue, false)
      else
        if F64.isInf (multiply (fourthRoot L (divide ⟨F64.neg z.Im, z.Re⟩
                ⟨F64.add (F64.neg z.Im) F64.one, z.Re⟩)) ⟨F64.zero, F64.one⟩).Re 0 ||
            F64.isInf (multiply (fourthRoot L (divide ⟨F64.neg z.Im, z.Re⟩
                ⟨F64.add (F64.neg z.Im) F64.one, z.Re⟩)) ⟨F64.zero, F64.one⟩).Im 0 ||
            F64.isNaN (multiply (fourthRoot L (divide ⟨F64.neg z.Im, z.Re⟩
                ⟨F64.add (F64.neg z.Im) F64.one, z.Re⟩)) ⟨F64.zero, F64.one⟩).Re ||
            F64.isNaN (multiply (fourthRoot L (divide ⟨F64.neg z.Im, z.Re⟩
                ⟨F64.add (F64.neg z.Im) F64.one, z.Re⟩)) ⟨F64.zero, F64.one⟩).Im then
          (complexNumber.zeroValue, false)
        else
          (multiply (fourthRoot L (divide ⟨F64.neg z.Im, z.Re⟩
              ⟨F64.add (F64.neg z.Im) F64.one, z.Re⟩)) ⟨F64.zero, F64.one⟩, true) := rfl

/-- The body of `fourthRoot`, with its local variables substituted. -/
theorem fourthRoot_unfold (L : Lib) (z : complexNumber) :
    fourthRoot L z =
      ⟨F64.mul (L.Pow (L.Hypot z.Re z.Im) (F64.ofRat false 25 100))
          (L.Cos (F64.div (L.Atan2 z.Im z.Re) (F64.ofNat 4))),
       F64.mul (L.Pow (L.Hypot z.Re z.Im) (F64.ofRat false 25 100))
          (L.Sin (F64.div (L.Atan2 z.Im z.Re) (F64.ofNat 4)))⟩ := rfl

/-- C7, counterexample: at `z = (0, -1)` the denominator `iz + 1` is `(2, 0)`, not `(0, 0)`,
and the map is defined (with the sample library here; `mapZtoW_minus_i_any` has it for every
library with the usual values at the arguments involved). -/
theorem mapZtoW_minus_i_defined :
    (F64.add (F64.neg zMinusI.Im) F64.one = F64.ofNat 2 ∧ zMinusI.Re = F64.zero) ∧
      (mapZtoW sampleLib zMinusI).2 = true := by decide!

/-- C7, as the code has it: at `z = (0, 1)` the denominator `iz + 1` is `(0, 0)`, and with a
modulus function that maps `(0, 0)` to `0` the map is undefined. -/
theorem mapZtoW_i_undefined (L : Lib) (h0 : L.Hypot F64.zero F64.zero = F64.zero) :
    (F64.add (F64.neg zI.Im) F64.one = F64.zero ∧ zI.Re = F64.zero) ∧
      mapZtoW L zI = (complexNumber.zeroValue, false) := by
  have hden : F64.add (F64.neg zI.Im) F64.one = F64.zero := by decide!
  refine ⟨⟨hden, rfl⟩, ?_⟩
  have hlt : F64.lt F64.zero epsilon = true := by decide!
  have hre : zI.Re = F64.zero := rfl
  rw [mapZtoW_unfold, hden, hre, h0, hlt]
  rfl


/-- C7, witness: the sample library maps `(0, 0)` to modulus `0`. -/
theorem mapZtoW_i_undefined_witness :
    sampleLib.Hypot F64.zero F64.zero = F64.zero ∧
    ((F64.add (F64.neg zI.Im) F64.one = F64.zero ∧ zI.Re = F64.zero) ∧
      mapZtoW sampleLib zI = (complexNumber.zeroValue, false)) :=
  ⟨by decide!, mapZtoW_i_undefined sampleLib (by decide!)⟩

/-- C8: at `z = (0, 0)` the map is defined and its value is `(0, 0)`, for every math library
that has the values `Hypot(1, 0) = 1`, `Hypot(0, 0) = 0`, `Atan2(0, 0) = 0`, `Pow(0, 0.25) = 0`,
`Cos(0) = 1` and `Sin(0) = 0`. -/
theorem mapZtoW_zero (L : Lib)
    (h1 : L.Hypot F64.one F64.zero = F64.one)
    (h0 : L.Hypot F64.zero F64.zero = F64.zero)
    (hat : L.Atan2 F64.zero F64.zero = F64.zero)
    (hpow : L.Pow F64.zero (F64.ofRat false 25 100) = F64.zero)
    (hcos : L.Cos F64.zero = F64.one)
    (hsin : L.Sin F64.zero = F64.zero) :
    mapZtoW L ⟨F64.zero, F64.zero⟩ = (⟨F64.zero, F64.zero⟩, true) := by
  have e1 : F64.add (F64.neg F64.zero) F64.one = F64.one := by decide!
  have e2 : F64.lt F64.one epsilon = false := by decide!
  have e3 : divide ⟨F64.neg F64.zero, F64.zero⟩ ⟨F64.one, F64.zero⟩ = ⟨F64.zero, F64.zero⟩ := by
    decide!
  have e4 : F64.div F64.zero (F64.ofNat 4) = F64.zero := by decide!
  have e5 : multiply ⟨F64.mul F64.zero F64.one, F64.mul F64.zero F64.zero⟩ ⟨F64.zero, F64.one⟩
      = ⟨F64.zero, F64.zero⟩ := by decide!
  have e6 : (F64.isInf F64.zero 0 || F64.isInf F64.zero 0 || F64.isNaN F64.zero ||
      F64.isNaN F64.zero) = false := rfl
  rw [mapZtoW_unfold]
  simp only []
  rw [e1, h1, e2, e3, fourthRoot_unfold]
  simp only []
  rw [h0, hat, hpow, e4, hcos, hsin, e5, e6]
  rfl


/-- C8, witness: the sample library has the six values. -/
theorem mapZtoW_zero_witness :
    (sampleLib.Hypot F64.one F64.zero = F64.one ∧ sampleLib.Hypot F64.zero F64.zero = F64.zero ∧
      sampleLib.Atan2 F64.zero F64.zero = F64.zero ∧
      sampleLib.Pow F64.zero (F64.ofRat false 25 100) = F64.zero ∧
      sampleLib.Cos F64.zero = F64.one ∧ sampleLib.Sin F64.zero = F64.zero) ∧
    mapZtoW sampleLib ⟨F64.zero, F64.zero⟩ = (⟨F64.zero, F64.zero⟩, true) :=
  ⟨by decide!, mapZtoW_zero sampleLib (by decide!) (by decide!) (by decide!) (by decide!)
    (by decide!) (by decide!)⟩

/-! ## Rounding never produces a zero from a magnitude of at least one unit -/

theorem two_pow_le (a b : Nat) (h : a ≤ b) : (2 : Nat) ^ a ≤ 2 ^ b :=
  Nat.pow_le_pow_right (by decide) h

theorem two_pow_pos (a : Nat) : 0 < (2 : Nat) ^ a := Nat.two_pow_pos a

theorem one_lt_two_pow (a : Nat) (h : a ≠ 0) : 1 < (2 : Nat) ^ a := Nat.one_lt_two_pow h

theorem bitLenBin_spec (k n : Nat) (hn : n ≠ 0) (hlt : n < 2 ^ (2 ^ k)) :
    0 < F64.bitLenBin k n ∧ 2 ^ (F64.bitLenBin k n - 1) ≤ n := by
  induction k generalizing n with
  | zero =>
    have h1 : n = 1 := by
      simp only [pow_zero, pow_one] at hlt
      omega
    subst h1
    decide
  | succ k ih =>
    unfold F64.bitLenBin
    split
    · rename_i hge
      have hpos : 0 < 2 ^ (2 ^ k) := Nat.two_pow_pos _
      have hm0 : n / 2 ^ (2 ^ k) ≠ 0 := by
        have := Nat.div_pos hge hpos
        omega
      have hmlt : n / 2 ^ (2 ^ k) < 2 ^ (2 ^ k) := by
        rw [Nat.div_lt_iff_lt_mul hpos, ← pow_add]
        have : 2 ^ k + 2 ^ k = 2 ^ (k + 1) := by rw [pow_succ]; omega
        rw [this]
        exact hlt
      obtain ⟨h1, h2⟩ := ih _ hm0 hmlt
      refine ⟨Nat.add_pos_right _ h1, ?_⟩
      have e : 2 ^ k + F64.bitLenBin k (n / 2 ^ (2 ^ k)) - 1
          = 2 ^ k + (F64.bitLenBin k (n / 2 ^ (2 ^ k)) - 1) := Nat.add_sub_assoc h1 _
      rw [e, pow_add]
      calc 2 ^ (2 ^ k) * 2 ^ (F64.bitLenBin k (n / 2 ^ (2 ^ k)) - 1)
          ≤ 2 ^ (2 ^ k) * (n / 2 ^ (2 ^ k)) := Nat.mul_le_mul_left _ h2
        _ ≤ n := Nat.mul_div_le n _
    · rename_i hlt2
      exact ih n hn (by omega)

theorem chunk_eq : F64.chunk = 2 ^ 4096 := by
  unfold F64.chunk
  rfl

theorem bitLenAux_spec (fuel n : Nat) (hf : n ≤ fuel) (hn : n ≠ 0) :
    0 < F64.bitLenAux fuel n ∧ 2 ^ (F64.bitLenAux fuel n - 1) ≤ n := by
  have h12 : F64.chunk = 2 ^ (2 ^ 12) :=
    chunk_eq.trans (congrArg (fun e => (2 : Nat) ^ e) (show 4096 = 2 ^ 12 from rfl))
  induction fuel generalizing n with
  | zero => omega
  | succ f ih =>
    by_cases hge : F64.chunk ≤ n
    · have e0 : F64.bitLenAux (f + 1) n = 4096 + F64.bitLenAux f (n / F64.chunk) := by
        rw [F64.bitLenAux, if_pos hge]
      rw [e0]
      have hpos : 0 < F64.chunk := by rw [chunk_eq]; exact two_pow_pos _
      have hone : 1 < F64.chunk := by rw [chunk_eq]; exact one_lt_two_pow _ (by decide)
      have hm0 : n / F64.chunk ≠ 0 := by
        have := Nat.div_pos hge hpos
        omega
      have hmf : n / F64.chunk ≤ f := by
        have : n / F64.chunk < n := Nat.div_lt_self (by omega) hone
        omega
      obtain ⟨h1, h2⟩ := ih _ hmf hm0
      refine ⟨Nat.add_pos_right _ h1, ?_⟩
      have e : 4096 + F64.bitLenAux f (n / F64.chunk) - 1
          = 4096 + (F64.bitLenAux f (n / F64.chunk) - 1) := Nat.add_sub_assoc h1 _
      rw [e, pow_add, ← chunk_eq]
      calc F64.chunk * 2 ^ (F64.bitLenAux f (n / F64.chunk) - 1)
          ≤ F64.chunk * (n / F64.chunk) := Nat.mul_le_mul_left _ h2
        _ ≤ n := Nat.mul_div_le n _
    · have e0 : F64.bitLenAux (f + 1) n = F64.bitLenBin 12 n := by
        rw [F64.bitLenAux, if_neg hge]
      rw [e0]
      apply bitLenBin_spec 12 n hn
      rw [← h12]
      omega

/-- A non-zero number has at least `bitLen - 1` binary digits below its leading one. -/
theorem bitLen_spec (n : Nat) (hn : n ≠ 0) : 0 < F64.bitLen n ∧ 2 ^ (F64.bitLen n - 1) ≤ n :=
  bitLenAux_spec n n (Nat.le_refl n) hn

/-- Rounding keeps the sign and returns an infinity or a finite value. -/
theorem round_cases (s : Bool) (N k : Nat) (st : Bool) :
    F64.round s N k st = F64.inf s ∨ ∃ n, F64.round s N k st = F64.fin s n := by
  unfold F64.round
  simp only
  rcases ite_eq_or_eq (F64.overflow_units ≤ _) (F64.inf s) (F64.fin s _) with h | h
  · exact Or.inl h
  · exact Or.inr ⟨_, h⟩

/-- A magnitude of at least one unit (`2^-1074`) is not rounded to zero. -/
theorem round_pos (s : Bool) (N k : Nat) (st : Bool) (h : 2 ^ k ≤ N) :
    F64.round s N k st = F64.inf s ∨ ∃ n, 0 < n ∧ F64.round s N k st = F64.fin s n := by
  have hN : N ≠ 0 := by
    have : 0 < 2 ^ k := Nat.two_pow_pos _
    omega
  obtain ⟨hb1, hb2⟩ := bitLen_spec N hN
  have hsh : 2 ^ (k + (F64.bitLen N - k - 53)) ≤ N := by
    by_cases ht : F64.bitLen N - k - 53 = 0
    · rw [ht, Nat.add_zero]; exact h
    · have : k + (F64.bitLen N - k - 53) ≤ F64.bitLen N - 1 := by omega
      exact le_trans (two_pow_le _ _ this) hb2
  have hq : 0 < N / 2 ^ (k + (F64.bitLen N - k - 53)) :=
    Nat.div_pos hsh (Nat.two_pow_pos _)
  unfold F64.round
  simp only
  rcases ite_eq_or_eq (F64.overflow_units ≤ _) (F64.inf s) (F64.fin s _) with h | h
  · exact Or.inl h
  · refine Or.inr ⟨_, ?_, h⟩
    apply Nat.mul_pos
    · split <;> omega
    · exact Nat.two_pow_pos _

/-- The square of any number is NaN, `+Inf` or a finite value with a clear sign bit. -/
theorem mul_self_cases (x : F64) :
    F64.mul x x = F64.nan ∨ F64.mul x x = F64.inf false ∨ ∃ m, F64.mul x x = F64.fin false m := by
  cases x with
  | nan => exact Or.inl rfl
  | inf a => right; left; cases a <;> rfl
  | fin a n =>
    have hx : xor a a = false := by cases a <;> rfl
    rcases round_cases (xor a a) (n * n) 1074 false with h | ⟨m, h⟩
    · right; left
      show F64.round (xor a a) (n * n) 1074 false = F64.inf false
      rw [h, hx]
    · right; right
      refine ⟨m, ?_⟩
      show F64.round (xor a a) (n * n) 1074 false = F64.fin false m
      rw [h, hx]

/-- The square of a number that is not below `2^-512` in magnitude is NaN, `+Inf` or a
positive finite value. -/
theorem mul_self_of_not_tiny (x : F64) (h : F64.lt (F64.abs x) tiny = false) :
    F64.mul x x = F64.nan ∨ F64.mul x x = F64.inf false ∨
      ∃ m, 0 < m ∧ F64.mul x x = F64.fin false m := by
  cases x with
  | nan => exact Or.inl rfl
  | inf a => right; left; cases a <;> rfl
  | fin a n =>
    have hx : xor a a = false := by cases a <;> rfl
    have hn : 2 ^ 562 ≤ n := by
      simp only [F64.abs, tiny, F64.lt, F64.sval, decide_eq_false_iff_not, Bool.false_eq_true,
        if_false, not_lt] at h
      exact_mod_cast h
    have hsq : 2 ^ 1074 ≤ n * n := by
      have hp : (2 : Nat) ^ 1074 ≤ 2 ^ (562 + 562) :=
        two_pow_le _ _ (by decide)
      rw [pow_add] at hp
      exact le_trans hp (Nat.mul_le_mul hn hn)
    rcases round_pos (xor a a) (n * n) 1074 false hsq with h | ⟨m, hm, h⟩
    · right; left
      show F64.round (xor a a) (n * n) 1074 false = F64.inf false
      rw [h, hx]
    · right; right
      refine ⟨m, hm, ?_⟩
      show F64.round (xor a a) (n * n) 1074 false = F64.fin false m
      rw [h, hx]

/-- The sum of two squares of which one is not zero is not zero. -/
theorem add_squares_ne_zero (x y : F64)
    (hx : x = F64.nan ∨ x = F64.inf false ∨ ∃ m, 0 < m ∧ x = F64.fin false m)
    (hy : y = F64.nan ∨ y = F64.inf false ∨ ∃ m, y = F64.fin false m) :
    F64.eq (F64.add x y) F64.zero = false ∧ F64.eq (F64.add y x) F64.zero = false := by
  rcases hx with hx | hx | ⟨m, hm, hx⟩ <;> rcases hy with hy | hy | ⟨m', hy⟩ <;> subst hx <;> subst hy
  · exact ⟨rfl, rfl⟩
  · exact ⟨rfl, rfl⟩
  · exact ⟨rfl, rfl⟩
  · exact ⟨rfl, rfl⟩
  · exact ⟨rfl, rfl⟩
  · exact ⟨rfl, rfl⟩
  · exact ⟨rfl, rfl⟩
  · exact ⟨rfl, rfl⟩
  · have key : ∀ N, 0 < N → F64.eq (F64.round false N 0 false) F64.zero = false := by
      intro N hN
      rcases round_pos false N 0 false (by simpa using hN) with h | ⟨n, hn, h⟩
      · rw [h]; rfl
      · rw [h]
        simp only [F64.eq, F64.zero, F64.sval, Bool.false_eq_true, if_false,
          decide_eq_false_iff_not]
        omega
    have e1 : F64.add (F64.fin false m) (F64.fin false m') = F64.round false (m + m') 0 false :=
      rfl
    have e2 : F64.add (F64.fin false m') (F64.fin false m) = F64.round false (m' + m) 0 false :=
      rfl
    rw [e1, e2]
    exact ⟨key _ (by omega), key _ (by omega)⟩

/-! ## The portable algorithm of `math.Hypot` on small arguments -/

theorem bitLen_zero : F64.bitLen 0 = 0 := by decide!

theorem overflow_units_eq : F64.overflow_units = 2 ^ 2098 := by
  unfold F64.overflow_units
  rfl

theorem one_units_eq : F64.one_units = 2 ^ 1074 := by
  unfold F64.one_units
  rfl

/-- A number below `2^b` has at most `b` binary digits. -/
theorem bitLen_le (N b : Nat) (h : N < 2 ^ b) : F64.bitLen N ≤ b := by
  by_cases hN : N = 0
  · rw [hN, bitLen_zero]; exact Nat.zero_le _
  · obtain ⟨h1, h2⟩ := bitLen_spec N hN
    by_contra hc
    have : 2 ^ b ≤ 2 ^ (F64.bitLen N - 1) := two_pow_le _ _ (by omega)
    omega

theorem two_pow_lt (a b : Nat) (h : a < b) : (2 : Nat) ^ a < 2 ^ b :=
  Nat.pow_lt_pow_right (by decide) h

theorem two_pow_double (a : Nat) : (2 : Nat) ^ a + 2 ^ a = 2 ^ (a + 1) := by
  rw [pow_succ]
  omega

/-- A magnitude of at most `2^a` units is rounded to a finite value of at most `2^(a+2)`
units, when that is in range. -/
theorem round_le (s : Bool) (N k : Nat) (st : Bool) (a b c : Nat) (hb : b = a + k)
    (hc : c = a + 2) (h : N ≤ 2 ^ b) (hov : c < 2098) :
    ∃ n, F64.round s N k st = F64.fin s n ∧ n ≤ 2 ^ c := by
  subst hb
  subst hc
  have hdiv : N / 2 ^ k ≤ 2 ^ a := by
    apply Nat.div_le_of_le_mul
    rw [← pow_add, Nat.add_comm]
    exact h
  have hq : N / 2 ^ (k + (F64.bitLen N - k - 53)) * 2 ^ (F64.bitLen N - k - 53) ≤ N / 2 ^ k := by
    rw [pow_add, ← Nat.div_div_eq_div_mul]
    exact Nat.div_mul_le_self _ _
  have ht : 2 ^ (F64.bitLen N - k - 53) ≤ 2 ^ a + 1 := by
    by_cases h0 : F64.bitLen N - k - 53 = 0
    · rw [h0]
      have := two_pow_pos a
      simp only [pow_zero]
      omega
    · have hN : N ≠ 0 := by
        intro hz
        rw [hz, bitLen_zero] at h0
        exact h0 (by omega)
      obtain ⟨_, hb⟩ := bitLen_spec N hN
      have h1 : 2 ^ (F64.bitLen N - k - 53 + k) ≤ 2 ^ (F64.bitLen N - 1) :=
        two_pow_le _ _ (by omega)
      have h2 : 2 ^ (F64.bitLen N - k - 53) ≤ N / 2 ^ k := by
        rw [Nat.le_div_iff_mul_le (two_pow_pos k), ← pow_add]
        exact le_trans h1 hb
      omega
  have hbound : (if (decide (0 < k + (F64.bitLen N - k - 53)) &&
        (decide (2 ^ (k + (F64.bitLen N - k - 53) - 1) < N % 2 ^ (k + (F64.bitLen N - k - 53))) ||
          (decide (N % 2 ^ (k + (F64.bitLen N - k - 53)) = 2 ^ (k + (F64.bitLen N - k - 53) - 1)) &&
            (st || decide (N / 2 ^ (k + (F64.bitLen N - k - 53)) % 2 = 1))))) = true
      then N / 2 ^ (k + (F64.bitLen N - k - 53)) + 1
      else N / 2 ^ (k + (F64.bitLen N - k - 53))) * 2 ^ (F64.bitLen N - k - 53)
      ≤ 2 ^ (a + 2) := by
    have h4 : (2 : Nat) ^ (a + 2) = 4 * 2 ^ a := by rw [pow_add]; omega
    have hp := two_pow_pos a
    have hle : ∀ x, x ≤ N / 2 ^ (k + (F64.bitLen N - k - 53)) + 1 →
        x * 2 ^ (F64.bitLen N - k - 53) ≤ 2 ^ (a + 2) := by
      intro x hx
      calc x * 2 ^ (F64.bitLen N - k - 53)
          ≤ (N / 2 ^ (k + (F64.bitLen N - k - 53)) + 1) * 2 ^ (F64.bitLen N - k - 53) :=
            Nat.mul_le_mul_right _ hx
        _ = N / 2 ^ (k + (F64.bitLen N - k - 53)) * 2 ^ (F64.bitLen N - k - 53)
              + 2 ^ (F64.bitLen N - k - 53) := by rw [Nat.add_mul, Nat.one_mul]
        _ ≤ 2 ^ (a + 2) := by omega
    split
    · exact hle _ (Nat.le_refl _)
    · exact hle _ (Nat.le_succ _)
  unfold F64.round
  simp only
  rw [if_neg]
  · exact ⟨_, rfl, hbound⟩
  · rw [overflow_units_eq]
    have := two_pow_lt _ _ hov
    omega

theorem isqrtAux_le (fuel n x : Nat) : F64.isqrtAux fuel n x ≤ x := by
  induction fuel generalizing x with
  | zero => exact Nat.le_refl _
  | succ f ih =>
    unfold F64.isqrtAux
    simp only
    split
    · rename_i hlt
      exact le_trans (ih _) (Nat.le_of_lt hlt)
    · exact Nat.le_refl _

/-- The integer square root of a number below `2^(2b)` is at most `2^b`. -/
theorem isqrt_le (N b : Nat) (h : N < 2 ^ (2 * b)) : F64.isqrt N ≤ 2 ^ b := by
  unfold F64.isqrt
  split
  · exact Nat.zero_le _
  · have hb := bitLen_le N (2 * b) h
    exact le_trans (isqrtAux_le _ _ _) (two_pow_le _ _ (by omega))

/-- Every magnitude up to `2^571` units (`2^-503`) is below the threshold `0.0001`. -/
theorem lt_epsilon_of_small (n : Nat) (h : n ≤ 2 ^ 571) :
    F64.lt (F64.fin false n) epsilon = true := by
  have h1 : F64.lt (F64.fin false (2 ^ 571)) epsilon = true := by decide!
  generalize epsilon = e at h1 ⊢
  cases e with
  | nan =>
    change false = true at h1
    exact absurd h1 (by decide)
  | inf b =>
    change (!b) = true at h1
    exact h1
  | fin b m =>
    simp only [F64.lt, F64.sval, Bool.false_eq_true, if_false, decide_eq_true_eq] at h1 ⊢
    have : (n : Int) ≤ ((2 ^ 571 : Nat) : Int) := by exact_mod_cast h
    omega

theorem scaled_quotient_le (lo hi e : Nat) (hle : lo ≤ hi) : lo * 2 ^ e / hi ≤ 2 ^ e := by
  apply Nat.div_le_of_le_mul
  exact Nat.mul_le_mul_right _ hle

/-- The portable algorithm of `math.Hypot` on a larger magnitude `hi` below `2^-512` and a
smaller magnitude `lo`. -/
theorem hypot_core_small (hi lo : Nat) (hle : lo ≤ hi) (hhi : hi < 2 ^ 562) :
    F64.lt
      (if F64.eq (F64.fin false hi) F64.zero = true then F64.zero
       else F64.mul (F64.fin false hi)
        (F64.sqrt (F64.add F64.one
          (F64.mul (F64.div (F64.fin false lo) (F64.fin false hi))
            (F64.div (F64.fin false lo) (F64.fin false hi))))))
      epsilon = true := by
  split
  · exact lt_epsilon_of_small 0 (Nat.zero_le _)
  · rename_i hne
    have hhi0 : hi ≠ 0 := by
      intro hz
      apply hne
      rw [hz]
      rfl
    -- the quotient lo / hi
    have hdiv : F64.div (F64.fin false lo) (F64.fin false hi)
        = F64.round false (lo * 2 ^ 1075 / hi) 1 (decide (lo * 2 ^ 1075 % hi ≠ 0)) := by
      show (if hi = 0 then _ else F64.ofRat (xor false false) lo hi) = _
      rw [if_neg hhi0]
      rfl
    obtain ⟨t, ht, htb⟩ := round_le false (lo * 2 ^ 1075 / hi) 1
      (decide (lo * 2 ^ 1075 % hi ≠ 0)) 1074 1075 1076 rfl rfl
      (scaled_quotient_le lo hi 1075 hle) (by decide)
    rw [hdiv, ht]
    -- its square
    have hsq : F64.mul (F64.fin false t) (F64.fin false t)
        = F64.round false (t * t) 1074 false := rfl
    obtain ⟨u, hu, hub⟩ := round_le false (t * t) 1074 false 1078 2152 1080 rfl rfl
      (by
        have h1 : t * t ≤ 2 ^ 1076 * 2 ^ 1076 := Nat.mul_le_mul htb htb
        rw [← pow_add] at h1
        exact le_trans h1 (two_pow_le _ _ (by decide)))
      (by decide)
    rw [hsq, hu]
    -- one plus the square
    have hadd : F64.add F64.one (F64.fin false u)
        = F64.round false (F64.one_units + u) 0 false := rfl
    obtain ⟨v, hv, hvb⟩ := round_le false (F64.one_units + u) 0 false 1081 1081 1083 rfl rfl
      (by
        rw [one_units_eq]
        have h1 : (2 : Nat) ^ 1074 ≤ 2 ^ 1080 := two_pow_le _ _ (by decide)
        have h2 : (2 : Nat) ^ 1080 + 2 ^ 1080 ≤ 2 ^ 1081 :=
          le_trans (Nat.le_of_eq (two_pow_double 1080)) (two_pow_le _ _ (by decide))
        omega)
      (by decide)
    rw [hadd, hv]
    -- the square root
    have hroot : ∃ r, F64.sqrt (F64.fin false v) = F64.fin false r ∧ r ≤ 2 ^ 1081 := by
      by_cases hv0 : v = 0
      · refine ⟨0, ?_, Nat.zero_le _⟩
        rw [hv0]
        rfl
      · have hs : F64.sqrt (F64.fin false v)
            = F64.round false (F64.isqrt (v * 2 ^ 1076)) 1
                (decide (F64.isqrt (v * 2 ^ 1076) * F64.isqrt (v * 2 ^ 1076) ≠ v * 2 ^ 1076)) := by
          show (if v = 0 then _ else if false = true then _ else _) = _
          rw [if_neg hv0, if_neg (by decide)]
        rw [hs]
        apply round_le false _ 1 _ 1079 1080 1081 rfl rfl
        · apply isqrt_le
          have h1 : v * 2 ^ 1076 ≤ 2 ^ 1083 * 2 ^ 1076 := Nat.mul_le_mul_right _ hvb
          rw [← pow_add] at h1
          have h2 := two_pow_lt (1083 + 1076) (2 * 1080) (by decide)
          omega
        · decide
    obtain ⟨r, hr, hrb⟩ := hroot
    rw [hr]
    -- the product
    have hmul : F64.mul (F64.fin false hi) (F64.fin false r)
        = F64.round false (hi * r) 1074 false := rfl
    obtain ⟨w, hw, hwb⟩ := round_le false (hi * r) 1074 false 569 1643 571 rfl rfl
      (by
        have h1 : hi * r ≤ 2 ^ 562 * 2 ^ 1081 := Nat.mul_le_mul (Nat.le_of_lt hhi) hrb
        rw [← pow_add] at h1
        exact le_trans h1 (two_pow_le _ _ (by decide)))
      (by decide)
    rw [hmul, hw]
    exact lt_epsilon_of_small w hwb

/-- For two finite numbers below `2^-512` in magnitude the portable algorithm of `math.Hypot`
returns a value below `0.0001`. -/
theorem sample_hypot_small (p q : F64) (hp : F64.lt (F64.abs p) tiny = true)
    (hq : F64.lt (F64.abs q) tiny = true) :
    F64.lt (Sample.Hypot p q) epsilon = true := by
  have fin_of : ∀ x, F64.lt (F64.abs x) tiny = true →
      ∃ s n, x = F64.fin s n ∧ n < 2 ^ 562 := by
    intro x hx
    cases x with
    | nan =>
      change false = true at hx
      exact absurd hx (by decide)
    | inf a =>
      change false = true at hx
      exact absurd hx (by decide)
    | fin s n =>
      refine ⟨s, n, rfl, ?_⟩
      simp only [F64.abs, tiny, F64.lt, F64.sval, Bool.false_eq_true, if_false,
        decide_eq_true_eq] at hx
      exact_mod_cast hx
  obtain ⟨s1, n1, rfl, h1⟩ := fin_of p hp
  obtain ⟨s2, n2, rfl, h2⟩ := fin_of q hq
  have hlt : F64.lt (F64.fin false n1) (F64.fin false n2) = decide (n1 < n2) := by
    simp only [F64.lt, F64.sval, Bool.false_eq_true, if_false, Nat.cast_lt]
  unfold Sample.Hypot
  simp only [F64.abs, F64.isInf, F64.isNaN, Bool.or_self, Bool.false_eq_true, if_false, hlt]
  by_cases hc : n1 < n2
  · simp only [hc, decide_True, if_true]
    exact hypot_core_small n2 n1 (Nat.le_of_lt hc) h2
  · simp only [hc, decide_False, Bool.false_eq_true, if_false]
    exact hypot_core_small n1 n2 (by omega) h1

/-! ## The transform at `z = (0, -1)` for any library -/

/-- At `z = (0, -1)` the map is defined for every math library with the values
`Hypot(2, 0) = 2`, `Hypot(0.5, 0) = 0.5`, `Atan2(0, 0.5) = 0`, `Cos(0) = 1`, `Sin(0) = 0` and a
finite `Pow(0.5, 0.25)` between `0` and `1`; its real part is `0`. -/
theorem mapZtoW_minus_i_any (L : Lib)
    (h2 : L.Hypot (F64.ofNat 2) F64.zero = F64.ofNat 2)
    (hh : L.Hypot half F64.zero = half)
    (hat : L.Atan2 F64.zero half = F64.zero)
    (hcos : L.Cos F64.zero = F64.one)
    (hsin : L.Sin F64.zero = F64.zero)
    (n : Nat) (hn : n ≤ 2 ^ 1074)
    (hpow : L.Pow half (F64.ofRat false 25 100) = F64.fin false n) :
    (mapZtoW L zMinusI).2 = true ∧ (mapZtoW L zMinusI).1.Re = F64.zero := by
  have e1 : F64.add (F64.neg zMinusI.Im) F64.one = F64.ofNat 2 := by decide!
  have e0 : zMinusI.Re = F64.zero := rfl
  have e2 : F64.lt (F64.ofNat 2) epsilon = false := by decide!
  have e3 : divide ⟨F64.neg zMinusI.Im, F64.zero⟩ ⟨F64.ofNat 2, F64.zero⟩ = ⟨half, F64.zero⟩ := by
    decide!
  have e4 : F64.div F64.zero (F64.ofNat 4) = F64.zero := by decide!
  have r0 : F64.round false 0 1074 false = F64.fin false 0 := by decide!
  have m0 : ∀ m, F64.mul (F64.fin false m) F64.zero = F64.fin false 0 := by
    intro m
    show F64.round (xor false false) (m * 0) 1074 false = _
    rw [Nat.mul_zero]
    exact r0
  have m1 : F64.mul (F64.fin false 0) F64.one = F64.fin false 0 := by decide!
  have s0 : F64.sub (F64.fin false 0) (F64.fin false 0) = F64.fin false 0 := by decide!
  -- the modulus of the root, times `Cos 0 = 1`
  obtain ⟨m, hm, hmb⟩ := round_le false (n * F64.one_units) 1074 false 1074 2148 1076 rfl rfl
    (by
      rw [one_units_eq]
      have h1 : n * 2 ^ 1074 ≤ 2 ^ 1074 * 2 ^ 1074 := Nat.mul_le_mul_right _ hn
      rw [← pow_add] at h1
      exact le_trans h1 (two_pow_le _ _ (by decide)))
    (by decide)
  have hm' : F64.mul (F64.fin false n) F64.one = F64.fin false m := hm
  -- times `i`
  obtain ⟨m2, hm2, hm2b⟩ := round_le false (m * F64.one_units) 1074 false 1076 2150 1078 rfl rfl
    (by
      rw [one_units_eq]
      have h1 : m * 2 ^ 1074 ≤ 2 ^ 1076 * 2 ^ 1074 := Nat.mul_le_mul_right _ hmb
      rw [← pow_add] at h1
      exact le_trans h1 (two_pow_le _ _ (by decide)))
    (by decide)
  have hm2' : F64.mul (F64.fin false m) F64.one = F64.fin false m2 := hm2
  obtain ⟨m3, hm3, _⟩ := round_le false (m2 + 0) 0 false 1078 1078 1080 rfl rfl
    (by rw [Nat.add_zero]; exact hm2b) (by decide)
  have hm3' : F64.add (F64.fin false m2) (F64.fin false 0) = F64.fin false m3 := hm3
  have hres : multiply ⟨F64.fin false m, F64.fin false 0⟩ ⟨F64.zero, F64.one⟩
      = ⟨F64.fin false 0, F64.fin false m3⟩ := by
    show (⟨F64.sub (F64.mul (F64.fin false m) F64.zero) (F64.mul (F64.fin false 0) F64.one),
      F64.add (F64.mul (F64.fin false m) F64.one) (F64.mul (F64.fin false 0) F64.zero)⟩
        : complexNumber) = _
    rw [m0 m, m0 0, m1, s0, hm2', hm3']
  rw [mapZtoW_unfold, e1, e0, h2, e2, e3, fourthRoot_unfold]
  simp only []
  rw [hh, hat, hpow, e4, hcos, hsin, hm', m0 n, hres]
  exact ⟨rfl, rfl⟩

/-! ## The divisor inside `mapZtoW` -/

/-- C10: let `den = (-z.Im + 1, z.Re)` be the divisor `mapZtoW` passes to `divide`.  Whenever the
guard `modulus(den) < 0.0001` is false, the squared modulus `den.Re*den.Re + den.Im*den.Im`
that `divide` computes is not equal to zero, so `divide` takes its quotient branch and not the
`(+Inf, +Inf)` branch.  This holds for every `z` and every modulus function that returns a
value below `0.0001` when both components are below `2^-512` in magnitude, as the portable
algorithm of `math.Hypot` does (`sample_hypot_small`). -/
theorem divide_zero_branch_unreachable (L : Lib) (z : complexNumber)
    (hH : F64.lt (F64.abs (F64.add (F64.neg z.Im) F64.one)) tiny = true →
      F64.lt (F64.abs z.Re) tiny = true →
      F64.lt (L.Hypot (F64.add (F64.neg z.Im) F64.one) z.Re) epsilon = true)
    (hguard : F64.lt (modulus L ⟨F64.add (F64.neg z.Im) F64.one, z.Re⟩) epsilon = false) :
    F64.eq (F64.add (F64.mul (F64.add (F64.neg z.Im) F64.one) (F64.add (F64.neg z.Im) F64.one))
        (F64.mul z.Re z.Re)) F64.zero = false ∧
    divide ⟨F64.neg z.Im, z.Re⟩ ⟨F64.add (F64.neg z.Im) F64.one, z.Re⟩ =
      ⟨F64.div (F64.add (F64.mul (F64.neg z.Im) (F64.add (F64.neg z.Im) F64.one))
            (F64.mul z.Re z.Re))
          (F64.add (F64.mul (F64.add (F64.neg z.Im) F64.one) (F64.add (F64.neg z.Im) F64.one))
            (F64.mul z.Re z.Re)),
       F64.div (F64.sub (F64.mul z.Re (F64.add (F64.neg z.Im) F64.one))
            (F64.mul (F64.neg z.Im) z.Re))
          (F64.add (F64.mul (F64.add (F64.neg z.Im) F64.one) (F64.add (F64.neg z.Im) F64.one))
            (F64.mul z.Re z.Re))⟩ := by
  have hne : F64.eq (F64.add (F64.mul (F64.add (F64.neg z.Im) F64.one)
      (F64.add (F64.neg z.Im) F64.one)) (F64.mul z.Re z.Re)) F64.zero = false := by
    have hg : F64.lt (L.Hypot (F64.add (F64.neg z.Im) F64.one) z.Re) epsilon = false := hguard
    by_cases hp : F64.lt (F64.abs (F64.add (F64.neg z.Im) F64.one)) tiny = true
    · by_cases hq : F64.lt (F64.abs z.Re) tiny = true
      · rw [hH hp hq] at hg
        exact absurd hg (by decide)
      · exact (add_squares_ne_zero _ _ (mul_self_of_not_tiny _ (by simpa using hq))
          (mul_self_cases _)).2
    · exact (add_squares_ne_zero _ _ (mul_self_of_not_tiny _ (by simpa using hp))
        (mul_self_cases _)).1
  refine ⟨hne, ?_⟩
  unfold divide
  simp only
  rw [hne]
  rfl

/-- C10, witness: `z = (0, -1)`, where the divisor is `(2, 0)`. -/
theorem divide_zero_branch_unreachable_witness :
    ((F64.lt (F64.abs (F64.add (F64.neg zMinusI.Im) F64.one)) tiny = true →
      F64.lt (F64.abs zMinusI.Re) tiny = true →
      F64.lt (sampleLib.Hypot (F64.add (F64.neg zMinusI.Im) F64.one) zMinusI.Re) epsilon = true) ∧
      F64.lt (modulus sampleLib ⟨F64.add (F64.neg zMinusI.Im) F64.one, zMinusI.Re⟩) epsilon
        = false) ∧
    (F64.eq (F64.add (F64.mul (F64.add (F64.neg zMinusI.Im) F64.one)
          (F64.add (F64.neg zMinusI.Im) F64.one))
        (F64.mul zMinusI.Re zMinusI.Re)) F64.zero = false ∧
    divide ⟨F64.neg zMinusI.Im, zMinusI.Re⟩ ⟨F64.add (F64.neg zMinusI.Im) F64.one, zMinusI.Re⟩ =
      ⟨F64.div (F64.add (F64.mul (F64.neg zMinusI.Im) (F64.add (F64.neg zMinusI.Im) F64.one))
            (F64.mul zMinusI.Re zMinusI.Re))
          (F64.add (F64.mul (F64.add (F64.neg zMinusI.Im) F64.one)
              (F64.add (F64.neg zMinusI.Im) F64.one))
            (F64.mul zMinusI.Re zMinusI.Re)),
       F64.div (F64.sub (F64.mul zMinusI.Re (F64.add (F64.neg zMinusI.Im) F64.one))
            (F64.mul (F64.neg zMinusI.Im) zMinusI.Re))
          (F64.add (F64.mul (F64.add (F64.neg zMinusI.Im) F64.one)
              (F64.add (F64.neg zMinusI.Im) F64.one))
            (F64.mul zMinusI.Re zMinusI.Re))⟩) :=
  ⟨⟨sample_hypot_small _ _, by decide!⟩,
    divide_zero_branch_unreachable sampleLib zMinusI (sample_hypot_small _ _) (by decide!)⟩

/-! ## The point factory -/

/-- C4: when `generatePoint` returns `ok = true`, the point's `Z` is the candidate sampled from
the two draws, and it is outside the exclusion band: not (`|Z.Re| < 0.05` and `Z.Im > -0.05`
and `Z.Im < 1.05`). -/
theorem generatePoint_outside_band (L : Lib) (rng : Rand)
    (h : (generatePoint L rng).1.2 = true) :
    ((generatePoint L rng).1.1.Z.Re =
        F64.add (F64.neg (F64.ofNat 4)) (F64.mul (rng.draws 0) (F64.ofNat 8)) ∧
      (generatePoint L rng).1.1.Z.Im =
        F64.add (F64.neg (F64.ofNat 2)) (F64.mul (rng.draws 1) (F64.ofNat 7))) ∧
    ¬ (F64.lt (F64.abs (generatePoint L rng).1.1.Z.Re) (F64.ofRat false 5 100) = true ∧
        F64.gt (generatePoint L rng).1.1.Z.Im (F64.ofRat true 5 100) = true ∧
        F64.lt (generatePoint L rng).1.1.Z.Im (F64.ofRat false 105 100) = true) := by
  unfold generatePoint at h ⊢
  simp only at h ⊢
  split at h
  · simp at h
  · rename_i hband
    rw [if_neg hband]
    unfold mapAndDecorate at h ⊢
    simp only at h ⊢
    split at h
    · simp at h
    · rename_i hok
      rw [if_neg hok]
      simp only [Rand.Float64] at hband ⊢
      refine ⟨⟨trivial, trivial⟩, ?_⟩
      intro hb
      apply hband
      rw [hb.1, hb.2.1, hb.2.2]
      rfl

/-- C4, witness: the draws `0.5, 0` give the candidate `(0, -2)`, which is mapped. -/
theorem generatePoint_outside_band_witness :
    (generatePoint sampleLib (alternating half F64.zero)).1.2 = true ∧
    (((generatePoint sampleLib (alternating half F64.zero)).1.1.Z.Re =
        F64.add (F64.neg (F64.ofNat 4)) (F64.mul ((alternating half F64.zero).draws 0) (F64.ofNat 8)) ∧
      (generatePoint sampleLib (alternating half F64.zero)).1.1.Z.Im =
        F64.add (F64.neg (F64.ofNat 2)) (F64.mul ((alternating half F64.zero).draws 1) (F64.ofNat 7))) ∧
    ¬ (F64.lt (F64.abs (generatePoint sampleLib (alternating half F64.zero)).1.1.Z.Re)
          (F64.ofRat false 5 100) = true ∧
        F64.gt (generatePoint sampleLib (alternating half F64.zero)).1.1.Z.Im
          (F64.ofRat true 5 100) = true ∧
        F64.lt (generatePoint sampleLib (alternating half F64.zero)).1.1.Z.Im
          (F64.ofRat false 105 100) = true)) :=
  ⟨by decide!, generatePoint_outside_band sampleLib (alternating half F64.zero) (by decide!)⟩

/-! ## The sequential engine -/

/-- The generator `generatePoint` returns is its argument advanced by two draws. -/
theorem generatePoint_rng (L : Lib) (r : Rand) :
    (generatePoint L r).2 = ⟨fun i => r.draws (i + 1 + 1)⟩ := by
  unfold generatePoint
  simp only
  split <;> rfl

theorem generatePoint_rngAfter (L : Lib) (rng : Rand) (k : Nat) :
    (generatePoint L (rngAfter rng k)).2 = rngAfter rng (k + 1) := by
  rw [generatePoint_rng]
  unfold rngAfter
  simp only [Rand.mk.injEq]
  funext i
  apply congrArg
  omega

theorem rngAfter_zero (rng : Rand) : rngAfter rng 0 = rng := rfl

theorem successes_zero (L : Lib) (rng : Rand) : successes L rng 0 = [] := rfl

theorem successes_succ (L : Lib) (rng : Rand) (k : Nat) :
    successes L rng (k + 1) =
      successes L rng k ++
        (if (attemptResult L rng k).2 then [(attemptResult L rng k).1] else []) := by
  unfold successes
  rw [List.range_succ, List.filterMap_append]
  congr 1
  by_cases h : (attemptResult L rng k).2 = true <;> simp [List.filterMap, h]

/-- There are as many points in `successes` as successful attempts. -/
theorem successes_length (L : Lib) (rng : Rand) (k : Nat) :
    (successes L rng k).length
      = (List.range k).countP (fun i => (attemptResult L rng i).2) := by
  induction k with
  | zero => rfl
  | succ k ih =>
    rw [successes_succ, List.range_succ, List.countP_append, List.length_append, ih]
    congr 1
    by_cases h : (attemptResult L rng k).2 = true <;> simp [h]

/-- The loop never appends beyond `count`. -/
theorem seqLoop_length_le (L : Lib) (count limit : Int) (fuel : Nat) (s : SeqState)
    (h : (s.points.length : Int) ≤ count) :
    ((seqLoop L count limit fuel s).points.length : Int) ≤ count := by
  induction fuel generalizing s with
  | zero => exact h
  | succ f ih =>
    unfold seqLoop
    simp only
    split
    · rename_i hg
      split
      · apply ih
        simp only [List.length_append, List.length_singleton]
        push_cast
        omega
      · exact ih _ h
    · exact h

/-- With fuel for every attempt the budget allows, the loop stops because its condition is
false, not because the fuel is used up. -/
theorem seqLoop_exits (L : Lib) (count limit : Int) (fuel : Nat) (s : SeqState)
    (hfuel : limit ≤ s.attempts + fuel) :
    ¬ (((seqLoop L count limit fuel s).points.length : Int) < count ∧
      (seqLoop L count limit fuel s).attempts < limit) := by
  induction fuel generalizing s with
  | zero =>
    intro hc
    have h2 : s.attempts < limit := hc.2
    simp only [Nat.cast_zero, add_zero] at hfuel
    omega
  | succ f ih =>
    unfold seqLoop
    simp only
    split
    · split
      · apply ih
        show limit ≤ s.attempts + 1 + (f : Int)
        push_cast at hfuel
        omega
      · apply ih
        show limit ≤ s.attempts + 1 + (f : Int)
        push_cast at hfuel
        omega
    · rename_i hg
      exact hg

/-- The slice can be allocated when the capacity is not negative and its size in bytes is
within `maxAlloc`. -/
theorem makeSlicePanics_false (n : Int) (h0 : 0 ≤ n) (h1 : n * pointSize ≤ maxAlloc) :
    makeSlicePanics n = false := by
  unfold makeSlicePanics
  rw [decide_eq_false_iff_not]
  omega

/-- The slice cannot be allocated when its size in bytes exceeds `maxAlloc`. -/
theorem makeSlicePanics_true (n : Int) (h : maxAlloc < n * pointSize) :
    makeSlicePanics n = true := by
  unfold makeSlicePanics
  rw [decide_eq_true_eq]
  exact Or.inr h

/-- A request of at most 1,000,000,000 points is within the allocation limit. -/
theorem makeSlicePanics_small (n : Int) (h0 : 0 ≤ n) (h1 : n ≤ 1000000000) :
    makeSlicePanics n = false := by
  apply makeSlicePanics_false n h0
  unfold pointSize maxAlloc
  omega

/-- What the sequential engine returns, when it returns, is the slice of its final loop
state. -/
theorem generateAndMapSequential_some (L : Lib) (rng : Rand) (count : Int) (pts : List point)
    (h : generateAndMapSequential L rng count = some pts) :
    pts = (seqRun L rng count).points := by
  unfold generateAndMapSequential at h
  split at h
  · cases h
  · simp only [Option.some.injEq] at h
    exact h.symm

/-- C2: for every positive `count`, every library and every generator (hence every sequence of
successes and failures of the point factory): whenever `generateAndMapSequential` returns a
slice, its loop has stopped on its own condition and the length of the slice is between `0`
and `count`; it does return a slice whenever `make` accepts the capacity (`count` points fit
in `maxAlloc` bytes), and otherwise `make` panics. -/
theorem sequential_count_bounded (L : Lib) (rng : Rand) (count : Int) (hpos : 0 < count) :
    (∀ pts, generateAndMapSequential L rng count = some pts →
      pts = (seqRun L rng count).points ∧
      ¬ ((pts.length : Int) < count ∧ (seqRun L rng count).attempts < wrap64 (count * 15)) ∧
      0 ≤ (pts.length : Int) ∧ (pts.length : Int) ≤ count) ∧
    (count * pointSize ≤ maxAlloc →
      generateAndMapSequential L rng count = some (seqRun L rng count).points) ∧
    (maxAlloc < count * pointSize → generateAndMapSequential L rng count = none) := by
  refine ⟨?_, ?_, ?_⟩
  · intro pts hpts
    have hp := generateAndMapSequential_some L rng count pts hpts
    subst hp
    refine ⟨rfl, ?_, Int.natCast_nonneg _, ?_⟩
    · unfold seqRun
      apply seqLoop_exits
      show wrap64 (count * 15) ≤ (0 : Int) + ((wrap64 (count * 15)).toNat : Int)
      have := Int.self_le_toNat (wrap64 (count * 15))
      omega
    · unfold seqRun
      apply seqLoop_length_le
      simp only [List.length_nil]
      omega
  · intro hfit
    unfold generateAndMapSequential
    rw [makeSlicePanics_false count (by omega) hfit]
    rfl
  · intro hbig
    unfold generateAndMapSequential
    rw [makeSlicePanics_true count hbig]
    rfl

/-- C2, witness: a request for 3 points, which is answered with a slice. -/
theorem sequential_count_bounded_witness :
    ((0 : Int) < 3 ∧
      (generateAndMapSequential sampleLib (alternating half F64.zero) 3).isSome = true) ∧
    ((∀ pts, generateAndMapSequential sampleLib (alternating half F64.zero) 3 = some pts →
      pts = (seqRun sampleLib (alternating half F64.zero) 3).points ∧
      ¬ ((pts.length : Int) < 3 ∧
        (seqRun sampleLib (alternating half F64.zero) 3).attempts < wrap64 (3 * 15)) ∧
      0 ≤ (pts.length : Int) ∧ (pts.length : Int) ≤ 3) ∧
    ((3 : Int) * pointSize ≤ maxAlloc →
      generateAndMapSequential sampleLib (alternating half F64.zero) 3
        = some (seqRun sampleLib (alternating half F64.zero) 3).points) ∧
    (maxAlloc < (3 : Int) * pointSize →
      generateAndMapSequential sampleLib (alternating half F64.zero) 3 = none)) :=
  ⟨⟨by decide, by decide!⟩,
    sequential_count_bounded sampleLib (alternating half F64.zero) 3 (by decide)⟩

/-- The loop from the state reached after `a` attempts: it stops after `b ≥ a` attempts, at the
first `b` at which the quota is met or the budget is used up, holding the points of the
successful attempts. -/
theorem seqLoop_spec (L : Lib) (rng : Rand) (count limit : Int) (fuel a : Nat)
    (hal : (a : Int) ≤ limit) (hfuel : limit ≤ (a : Int) + fuel)
    (hlen : ((successes L rng a).length : Int) ≤ count)
    (hbefore : ∀ k, k < a → ((successes L rng k).length : Int) < count) :
    ∃ b : Nat, (seqLoop L count limit fuel ⟨successes L rng a, a, rngAfter rng a⟩).attempts = b ∧
      (seqLoop L count limit fuel ⟨successes L rng a, a, rngAfter rng a⟩).points
        = successes L rng b ∧
      (b : Int) ≤ limit ∧
      (((successes L rng b).length : Int) = count ∨ (b : Int) = limit) ∧
      (∀ k, k < b → ((successes L rng k).length : Int) < count) := by
  induction fuel generalizing a with
  | zero =>
    refine ⟨a, rfl, rfl, hal, Or.inr ?_, hbefore⟩
    simp only [Nat.cast_zero, add_zero] at hfuel
    omega
  | succ f ih =>
    unfold seqLoop
    simp only
    split
    · rename_i hg
      have hsucc := successes_succ L rng a
      have hstep : ∀ k, k < a + 1 → ((successes L rng k).length : Int) < count := by
        intro k hk
        rcases Nat.lt_succ_iff_lt_or_eq.mp hk with h | h
        · exact hbefore k h
        · rw [h]; exact hg.1
      have hcast : ((a : Int) + 1) = ((a + 1 : Nat) : Int) := by push_cast; rfl
      rw [generatePoint_rngAfter, hcast]
      have hok : (generatePoint L (rngAfter rng a)).1 = attemptResult L rng a := rfl
      rw [hok]
      split
      · rename_i hs
        rw [if_pos hs] at hsucc
        rw [← hsucc]
        apply ih (a + 1)
        · push_cast; omega
        · push_cast; push_cast at hfuel; omega
        · rw [hsucc]
          simp only [List.length_append, List.length_singleton]
          push_cast
          omega
        · exact hstep
      · rename_i hs
        rw [if_neg hs, List.append_nil] at hsucc
        rw [← hsucc]
        apply ih (a + 1)
        · push_cast; omega
        · push_cast; push_cast at hfuel; omega
        · rw [hsucc]; exact hlen
        · exact hstep
    · rename_i hg
      refine ⟨a, rfl, rfl, hal, ?_, hbefore⟩
      by_cases h1 : ((successes L rng a).length : Int) < count
      · right
        have : ¬ ((a : Int) < limit) := fun h2 => hg ⟨h1, h2⟩
        omega
      · left
        omega

/-- Once the loop has stopped because its condition is false, more fuel changes nothing. -/
theorem seqLoop_more_fuel (L : Lib) (count limit : Int) (fuel extra : Nat) (s : SeqState)
    (hstop : ¬ (((seqLoop L count limit fuel s).points.length : Int) < count ∧
      (seqLoop L count limit fuel s).attempts < limit)) :
    seqLoop L count limit (fuel + extra) s = seqLoop L count limit fuel s := by
  induction fuel generalizing s with
  | zero =>
    cases extra with
    | zero => rfl
    | succ e =>
      simp only [Nat.zero_add]
      unfold seqLoop at hstop ⊢
      rw [if_neg hstop]
  | succ f ih =>
    rw [Nat.add_right_comm]
    unfold seqLoop at hstop ⊢
    simp only at hstop ⊢
    split
    · rename_i hg
      rw [if_pos hg] at hstop
      split
      · rename_i hs
        rw [if_pos hs] at hstop
        exact ih _ hstop
      · rename_i hs
        rw [if_neg hs] at hstop
        exact ih _ hstop
    · rfl

theorem wrap64_small (x : Int) (h0 : -2 ^ 63 ≤ x) (h1 : x < 2 ^ 63) : wrap64 x = x := by
  unfold wrap64
  omega

/-- C9: for `1 ≤ count ≤ 1,000,000,000` the sequential engine returns, after a number `n` of
point-factory attempts that is at most `count × 15`.  It stops exactly when the quota is met or
the budget is used up: at the end `len(points) = count` or `n = count × 15`, and after fewer
than `n` attempts the quota was not met (nor the budget used up); more loop fuel gives the same
result.  If fewer than `count` points are returned then `n = count × 15`.  The returned points
are those of the successful attempts among the `n`, so their number is the number of successful
attempts. -/
theorem sequential_budget (L : Lib) (rng : Rand) (count : Int)
    (h1 : 1 ≤ count) (h2 : count ≤ 1000000000) :
    generateAndMapSequential L rng count = some (seqRun L rng count).points ∧
    ∃ n : Nat, (seqRun L rng count).attempts = n ∧ (n : Int) ≤ count * 15 ∧
      (((seqRun L rng count).points.length : Int) = count ∨ (n : Int) = count * 15) ∧
      (∀ k, k < n → ((successes L rng k).length : Int) < count ∧ (k : Int) < count * 15) ∧
      (((seqRun L rng count).points.length : Int) < count → (n : Int) = count * 15) ∧
      (seqRun L rng count).points = successes L rng n ∧
      (seqRun L rng count).points.length
        = (List.range n).countP (fun k => (attemptResult L rng k).2) ∧
      (∀ extra : Nat,
        seqLoop L count (count * 15) ((count * 15).toNat + extra) ⟨[], 0, rng⟩
          = seqRun L rng count) := by
  have hw : wrap64 (count * 15) = count * 15 := by apply wrap64_small <;> omega
  have hrun0 : seqRun L rng count
      = seqLoop L count (count * 15) (count * 15).toNat ⟨[], 0, rng⟩ := by
    unfold seqRun
    simp only [hw]
  have hrun : seqRun L rng count
      = seqLoop L count (count * 15) (count * 15).toNat
          ⟨successes L rng 0, ((0 : Nat) : Int), rngAfter rng 0⟩ := hrun0
  obtain ⟨b, hb1, hb2, hb3, hb4, hb5⟩ :=
    seqLoop_spec L rng count (count * 15) (count * 15).toNat 0
      (by push_cast; omega) (by push_cast; omega)
      (by rw [successes_zero]; simp only [List.length_nil]; push_cast; omega)
      (by intro k hk; omega)
  rw [← hrun] at hb1 hb2
  refine ⟨?_, b, hb1, hb3, ?_, ?_, ?_, hb2, ?_, ?_⟩
  · unfold generateAndMapSequential
    rw [makeSlicePanics_small count (by omega) h2]
    rfl
  · rw [hb2]; exact hb4
  · intro k hk
    exact ⟨hb5 k hk, by omega⟩
  · intro hlt
    rw [hb2] at hlt
    rcases hb4 with h | h
    · omega
    · exact h
  · rw [hb2]
    exact successes_length L rng b
  · intro extra
    rw [hrun0]
    apply seqLoop_more_fuel
    rw [← hrun0, hb1, hb2]
    intro hc
    rcases hb4 with h | h <;> omega

/-- C9, witness: a request for one point. -/
theorem sequential_budget_witness :
    ((1 : Int) ≤ 1 ∧ (1 : Int) ≤ 1000000000) ∧
    (generateAndMapSequential sampleLib (alternating half F64.zero) 1
        = some (seqRun sampleLib (alternating half F64.zero) 1).points ∧
    ∃ n : Nat, (seqRun sampleLib (alternating half F64.zero) 1).attempts = n ∧ (n : Int) ≤ 1 * 15 ∧
      (((seqRun sampleLib (alternating half F64.zero) 1).points.length : Int) = 1 ∨
        (n : Int) = 1 * 15) ∧
      (∀ k, k < n → ((successes sampleLib (alternating half F64.zero) k).length : Int) < 1 ∧
        (k : Int) < 1 * 15) ∧
      (((seqRun sampleLib (alternating half F64.zero) 1).points.length : Int) < 1 →
        (n : Int) = 1 * 15) ∧
      (seqRun sampleLib (alternating half F64.zero) 1).points
        = successes sampleLib (alternating half F64.zero) n ∧
      (seqRun sampleLib (alternating half F64.zero) 1).points.length
        = (List.range n).countP
            (fun k => (attemptResult sampleLib (alternating half F64.zero) k).2) ∧
      (∀ extra : Nat,
        seqLoop sampleLib 1 (1 * 15) (((1 : Int) * 15).toNat + extra)
            ⟨[], 0, alternating half F64.zero⟩
          = seqRun sampleLib (alternating half F64.zero) 1)) :=
  ⟨⟨by decide, by decide⟩,
    sequential_budget sampleLib (alternating half F64.zero) 1 (by decide) (by decide)⟩

/-! ## The parallel engine -/

/-- Replacing one element of a list changes a sum over the list by the difference of the two
summands. -/
theorem sum_map_set (f : Worker → Nat) (ws : List Worker) (i : Nat) (w w' : Worker)
    (hget : ws.get? i = some w) :
    ((ws.set i w').map f).sum + f w = (ws.map f).sum + f w' := by
  induction ws generalizing i with
  | nil => simp at hget
  | cons x xs ih =>
    cases i with
    | zero =>
      simp only [List.get?_cons_zero, Option.some.injEq] at hget
      subst hget
      simp only [List.set_cons_zero, List.map_cons, List.sum_cons]
      omega
    | succ j =>
      simp only [List.get?_cons_succ] at hget
      have := ih j hget
      simp only [List.set_cons_succ, List.map_cons, List.sum_cons]
      omega

theorem passedCount_set (ws : List Worker) (i : Nat) (w w' : Worker)
    (hget : ws.get? i = some w) :
    passedCount (ws.set i w') + w.pc.passed = passedCount ws + w'.pc.passed :=
  sum_map_set (fun w => w.pc.passed) ws i w w' hget

theorem ticketCount_set (target : Int) (ws : List Worker) (i : Nat) (w w' : Worker)
    (hget : ws.get? i = some w) :
    ticketCount target (ws.set i w') + w.pc.ticket target
      = ticketCount target ws + w'.pc.ticket target :=
  sum_map_set (fun w => w.pc.ticket target) ws i w w' hget

theorem finishedCount_set (ws : List Worker) (i : Nat) (w w' : Worker)
    (hget : ws.get? i = some w) :
    finishedCount (ws.set i w') + w.pc.finished = finishedCount ws + w'.pc.finished :=
  sum_map_set (fun w => w.pc.finished) ws i w w' hget

theorem passedCount_le_length (ws : List Worker) : passedCount ws ≤ ws.length := by
  unfold passedCount
  induction ws with
  | nil => simp
  | cons x xs ih =>
    simp only [List.map_cons, List.sum_cons, List.length_cons]
    have : x.pc.passed ≤ 1 := by
      cases x.pc <;> simp [PC.passed]
    omega

theorem finishedCount_le_length (ws : List Worker) : finishedCount ws ≤ ws.length := by
  unfold finishedCount
  induction ws with
  | nil => simp
  | cons x xs ih =>
    simp only [List.map_cons, List.sum_cons, List.length_cons]
    have : x.pc.finished ≤ 1 := by
      cases x.pc <;> simp [PC.finished]
    omega

/-- A worker that has not returned witnesses that the channel is still open. -/
theorem ParInv.open_of_running {c : ParCfg} {s : ParState} (h : ParInv c s) {i : Nat}
    {w : Worker} (hget : s.workers.get? i = some w) (hpc : w.pc ≠ PC.done) :
    s.closed = false ∧ s.returned = false := by
  have hc : s.closed = false := by
    cases hcl : s.closed with
    | false => rfl
    | true => exact absurd (h.closed_done hcl w (List.get?_mem hget)) hpc
  refine ⟨hc, ?_⟩
  cases hr : s.returned with
  | false => rfl
  | true =>
    have := (h.returned_closed hr).1
    rw [hc] at this
    exact absurd this (by decide)

/-- A step of a worker that changes only its own program point (and the attempt counter). -/
theorem ParInv.pc_change {c : ParCfg} {s : ParState} (h : ParInv c s) {i : Nat} {w : Worker}
    (hget : s.workers.get? i = some w) (hpc : w.pc ≠ PC.done) (w' : Worker) (a' : Int)
    (hpass : w'.pc.passed ≤ w.pc.passed ∨ s.produced < c.target)
    (htick : w'.pc.ticket c.target = w.pc.ticket c.target) :
    ParInv c { s with attempts := a', workers := s.workers.set i w' } := by
  obtain ⟨hopen, hret⟩ := h.open_of_running hget hpc
  have hp := passedCount_set s.workers i w w' hget
  have ht := ticketCount_set c.target s.workers i w w' hget
  have hlen := List.length_set s.workers i w'
  have hle := passedCount_le_length (s.workers.set i w')
  have hb := h.produced_bound
  have hk := h.tickets
  refine ⟨h.produced_nonneg, ?_, ?_, h.chan_split, ?_, ?_⟩
  · show s.produced + passedCount (s.workers.set i w') ≤ c.target + (s.workers.set i w').length
    rw [hlen] at hle ⊢
    rcases hpass with hpass | hpass <;> omega
  · show (s.sent.length : Int) + ticketCount c.target (s.workers.set i w') = min s.produced c.target
    omega
  · intro hcl
    have : s.closed = true := hcl
    rw [hopen] at this
    exact absurd this (by decide)
  · intro hr
    have : s.returned = true := hr
    rw [hret] at this
    exact absurd this (by decide)

/-- Every step of a worker preserves the invariant, provided the quota plus the number of
workers stays below `2^63`. -/
theorem ParInv.worker_step {L : Lib} {c : ParCfg} {s s' : ParState} (h : ParInv c s)
    (hW : c.target + s.workers.length < 2 ^ 63) {i : Nat} {w : Worker}
    (hget : s.workers.get? i = some w) (hstep : workerStep L c s i w = some s') :
    ParInv c s' ∧ s'.workers.length = s.workers.length := by
  unfold Conformal.workerStep at hstep
  split at hstep
  · -- check
    rename_i hpc
    have hnd : w.pc ≠ PC.done := by rw [hpc]; exact PC.noConfusion
    split at hstep
    · cases hstep
      exact ⟨h.pc_change hget hnd ⟨PC.done, w.rng⟩ s.attempts
        (Or.inl (by rw [hpc]; exact Nat.le_refl _)) (by rw [hpc]; rfl), List.length_set _ _ _⟩
    · rename_i hlt
      cases hstep
      exact ⟨h.pc_change hget hnd ⟨PC.attempt, w.rng⟩ s.attempts
        (Or.inr (by omega)) (by rw [hpc]; rfl), List.length_set _ _ _⟩
  · -- attempt
    rename_i hpc
    have hnd : w.pc ≠ PC.done := by rw [hpc]; exact PC.noConfusion
    simp only at hstep
    split at hstep
    · cases hstep
      exact ⟨h.pc_change hget hnd ⟨PC.done, w.rng⟩ _
        (Or.inl (by rw [hpc]; exact Nat.zero_le _)) (by rw [hpc]; rfl), List.length_set _ _ _⟩
    · cases hstep
      exact ⟨h.pc_change hget hnd ⟨PC.generate, w.rng⟩ _
        (Or.inl (by rw [hpc]; exact Nat.le_refl _)) (by rw [hpc]; rfl), List.length_set _ _ _⟩
  · -- generate
    rename_i hpc
    have hnd : w.pc ≠ PC.done := by rw [hpc]; exact PC.noConfusion
    simp only at hstep
    split at hstep
    · cases hstep
      exact ⟨h.pc_change hget hnd ⟨PC.check, _⟩ s.attempts
        (Or.inl (by rw [hpc]; exact Nat.zero_le _)) (by rw [hpc]; rfl), List.length_set _ _ _⟩
    · cases hstep
      exact ⟨h.pc_change hget hnd ⟨PC.count _, _⟩ s.attempts
        (Or.inl (by rw [hpc]; exact Nat.le_refl _)) (by rw [hpc]; rfl), List.length_set _ _ _⟩
  · -- count
    rename_i p hpc
    have hnd : w.pc ≠ PC.done := by rw [hpc]; exact PC.noConfusion
    simp only at hstep
    cases hstep
    obtain ⟨hopen, hret⟩ := h.open_of_running hget hnd
    have hp := passedCount_set s.workers i w
      ⟨PC.compare p (wrap64 (s.produced + 1)), w.rng⟩ hget
    have ht := ticketCount_set c.target s.workers i w
      ⟨PC.compare p (wrap64 (s.produced + 1)), w.rng⟩ hget
    have hlen := List.length_set s.workers i
      (⟨PC.compare p (wrap64 (s.produced + 1)), w.rng⟩ : Worker)
    have hb := h.produced_bound
    have hk := h.tickets
    have h0 := h.produced_nonneg
    simp only [hpc, PC.passed, PC.ticket] at hp ht
    have hwrap : wrap64 (s.produced + 1) = s.produced + 1 := by
      apply wrap64_small <;> omega
    rw [hwrap] at hp ht hlen ⊢
    refine ⟨⟨?_, ?_, ?_, h.chan_split, ?_, ?_⟩, hlen⟩
    · show 0 ≤ s.produced + 1
      omega
    · show s.produced + 1 + passedCount (s.workers.set i ⟨PC.compare p (s.produced + 1), w.rng⟩)
        ≤ c.target + (s.workers.set i ⟨PC.compare p (s.produced + 1), w.rng⟩).length
      rw [hlen]
      omega
    · show (s.sent.length : Int)
          + ticketCount c.target (s.workers.set i ⟨PC.compare p (s.produced + 1), w.rng⟩)
        = min (s.produced + 1) c.target
      split at ht <;> omega
    · intro hcl
      have : s.closed = true := hcl
      rw [hopen] at this
      exact absurd this (by decide)
    · intro hr
      have : s.returned = true := hr
      rw [hret] at this
      exact absurd this (by decide)
  · -- compare
    rename_i p current hpc
    have hnd : w.pc ≠ PC.done := by rw [hpc]; exact PC.noConfusion
    split at hstep
    · rename_i hgt
      cases hstep
      exact ⟨h.pc_change hget hnd ⟨PC.done, w.rng⟩ s.attempts
        (Or.inl (by rw [hpc]; exact Nat.le_refl _))
        (by rw [hpc]; simp only [PC.ticket]; rw [if_neg (by omega)]), List.length_set _ _ _⟩
    · rename_i hle
      cases hstep
      exact ⟨h.pc_change hget hnd ⟨PC.send p, w.rng⟩ s.attempts
        (Or.inl (by rw [hpc]; exact Nat.le_refl _))
        (by rw [hpc]; simp only [PC.ticket]; rw [if_pos (by omega)]), List.length_set _ _ _⟩
  · -- send
    rename_i p hpc
    have hnd : w.pc ≠ PC.done := by rw [hpc]; exact PC.noConfusion
    split at hstep
    · cases hstep
      obtain ⟨hopen, hret⟩ := h.open_of_running hget hnd
      have hp := passedCount_set s.workers i w ⟨PC.check, w.rng⟩ hget
      have ht := ticketCount_set c.target s.workers i w ⟨PC.check, w.rng⟩ hget
      have hlen := List.length_set s.workers i (⟨PC.check, w.rng⟩ : Worker)
      have hb := h.produced_bound
      have hk := h.tickets
      simp only [hpc, PC.passed, PC.ticket] at hp ht
      refine ⟨⟨h.produced_nonneg, ?_, ?_, ?_, ?_, ?_⟩, hlen⟩
      · show s.produced + passedCount (s.workers.set i ⟨PC.check, w.rng⟩)
          ≤ c.target + (s.workers.set i ⟨PC.check, w.rng⟩).length
        rw [hlen]
        omega
      · show ((s.sent ++ [p]).length : Int)
            + ticketCount c.target (s.workers.set i ⟨PC.check, w.rng⟩)
          = min s.produced c.target
        rw [List.length_append, List.length_singleton]
        push_cast
        omega
      · show s.points ++ (s.chan ++ [p]) = s.sent ++ [p]
        rw [← List.append_assoc, h.chan_split]
      · intro hcl
        have : s.closed = true := hcl
        rw [hopen] at this
        exact absurd this (by decide)
      · intro hr
        have : s.returned = true := hr
        rw [hret] at this
        exact absurd this (by decide)
    · cases hstep
  · -- done
    cases hstep

/-- Every step of the system preserves the invariant. -/
theorem ParInv.step_inv {L : Lib} {c : ParCfg} {s s' : ParState} (h : ParInv c s)
    (hW : c.target + s.workers.length < 2 ^ 63) {a : Action}
    (hstep : parStep L c s a = some s') :
    ParInv c s' ∧ s'.workers.length = s.workers.length := by
  cases a with
  | worker i =>
    simp only [parStep] at hstep
    split at hstep
    · rename_i w hget
      exact h.worker_step hW hget hstep
    · cases hstep
  | closer =>
    simp only [parStep] at hstep
    split at hstep
    · rename_i hc
      cases hstep
      simp only [Bool.and_eq_true, Bool.not_eq_true', List.all_eq_true] at hc
      refine ⟨⟨h.produced_nonneg, h.produced_bound, h.tickets, h.chan_split, ?_, ?_⟩, rfl⟩
      · intro _ w hw
        have := hc.1 w hw
        cases hpc : w.pc <;> simp [hpc, PC.isDone] at this ⊢
      · intro hr
        have := (h.returned_closed hr).1
        rw [hc.2] at this
        exact absurd this (by decide)
    · cases hstep
  | receive =>
    simp only [parStep] at hstep
    split at hstep
    · cases hstep
    · rename_i hnr
      split at hstep
      · rename_i p rest hch
        cases hstep
        refine ⟨⟨h.produced_nonneg, h.produced_bound, h.tickets, ?_, h.closed_done, ?_⟩, rfl⟩
        · show (s.points ++ [p]) ++ rest = s.sent
          rw [List.append_assoc, List.singleton_append, ← hch]
          exact h.chan_split
        · intro hr
          exact absurd hr hnr
      · rename_i hch
        split at hstep
        · rename_i hcl
          cases hstep
          refine ⟨⟨h.produced_nonneg, h.produced_bound, h.tickets, h.chan_split, h.closed_done,
            ?_⟩, rfl⟩
          intro _
          exact ⟨hcl, hch⟩
        · cases hstep

/-- Every schedule preserves the invariant. -/
theorem ParInv.run_inv {L : Lib} {c : ParCfg} (sched : List Action) {s s' : ParState}
    (h : ParInv c s) (hW : c.target + s.workers.length < 2 ^ 63)
    (hrun : parRun L c s sched = some s') :
    ParInv c s' ∧ s'.workers.length = s.workers.length := by
  induction sched generalizing s with
  | nil =>
    simp only [parRun, Option.some.injEq] at hrun
    subst hrun
    exact ⟨h, rfl⟩
  | cons a rest ih =>
    simp only [parRun] at hrun
    split at hrun
    · rename_i s1 hs1
      obtain ⟨h1, hl1⟩ := h.step_inv hW hs1
      obtain ⟨h2, hl2⟩ := ih h1 (by rw [hl1]; exact hW) hrun
      exact ⟨h2, by rw [hl2, hl1]⟩
    · cases hrun

theorem passedCount_init (n : Nat) (seeds : Nat → Rand) :
    passedCount ((List.range n).map (fun i => (⟨PC.check, seeds i⟩ : Worker))) = 0 := by
  unfold passedCount
  rw [List.map_map]
  apply List.sum_eq_zero
  intro x hx
  simp only [List.mem_map] at hx
  obtain ⟨i, _, hi⟩ := hx
  rw [← hi]
  rfl

theorem ticketCount_init (target : Int) (n : Nat) (seeds : Nat → Rand) :
    ticketCount target ((List.range n).map (fun i => (⟨PC.check, seeds i⟩ : Worker))) = 0 := by
  unfold ticketCount
  rw [List.map_map]
  apply List.sum_eq_zero
  intro x hx
  simp only [List.mem_map] at hx
  obtain ⟨i, _, hi⟩ := hx
  rw [← hi]
  rfl

/-- The invariant holds when the goroutines are started. -/
theorem ParInv.init_inv (numCPU count : Int) (seeds : Nat → Rand) (hpos : 0 < count) :
    ParInv (parCfg numCPU count) (parInit numCPU count seeds) := by
  refine ⟨le_refl _, ?_, ?_, rfl, ?_, ?_⟩
  · show (0 : Int) + passedCount (parInit numCPU count seeds).workers
      ≤ count + (parInit numCPU count seeds).workers.length
    unfold parInit
    simp only
    rw [passedCount_init]
    push_cast
    omega
  · show (([] : List point).length : Int)
        + ticketCount count (parInit numCPU count seeds).workers = min 0 count
    unfold parInit
    simp only
    rw [ticketCount_init]
    simp only [List.length_nil]
    push_cast
    omega
  · intro hc
    exact absurd (show false = true from hc) (by decide)
  · intro hr
    exact absurd (show false = true from hr) (by decide)

/-! ### A negative attempt budget -/

/-- With a negative budget and a positive quota every step keeps the system idle: workers
only move from the quota check to the budget check and from there to their return. -/
theorem ParIdle.step_idle {L : Lib} {c : ParCfg} {s s' : ParState} (h : ParIdle s)
    (hT : 0 < c.target) (hlim : c.limit < 0) (hW : (s.workers.length : Int) < 2 ^ 62)
    {a : Action} (hstep : parStep L c s a = some s') :
    ParIdle s' ∧ s'.workers.length = s.workers.length := by
  cases a with
  | worker i =>
    simp only [parStep] at hstep
    split at hstep
    · rename_i w hget
      have hmem := List.get?_mem hget
      have hfl := finishedCount_le_length s.workers
      have hpcs : ∀ w' : Worker, (w'.pc = PC.check ∨ w'.pc = PC.attempt ∨ w'.pc = PC.done) →
          ∀ x ∈ s.workers.set i w', x.pc = PC.check ∨ x.pc = PC.attempt ∨ x.pc = PC.done := by
        intro w' hw' x hx
        rcases List.mem_or_eq_of_mem_set hx with hx | hx
        · exact h.pcs x hx
        · rw [hx]; exact hw'
      unfold workerStep at hstep
      split at hstep
      · -- check
        rename_i hpc
        split at hstep
        · rename_i hge
          rw [h.produced_zero] at hge
          omega
        · cases hstep
          have hf := finishedCount_set s.workers i w ⟨PC.attempt, w.rng⟩ hget
          simp only [hpc, PC.finished] at hf
          refine ⟨⟨h.produced_zero, h.attempts_nonneg, ?_, ?_, h.nothing_sent⟩,
            List.length_set _ _ _⟩
          · show s.attempts ≤ finishedCount (s.workers.set i ⟨PC.attempt, w.rng⟩)
            have := h.attempts_bound
            omega
          · exact hpcs _ (Or.inr (Or.inl rfl))
      · -- attempt
        rename_i hpc
        have hw : wrap64 (s.attempts + 1) = s.attempts + 1 := by
          have := h.attempts_nonneg
          have := h.attempts_bound
          apply wrap64_small <;> omega
        simp only [hw] at hstep
        split at hstep
        · cases hstep
          have hf := finishedCount_set s.workers i w ⟨PC.done, w.rng⟩ hget
          simp only [hpc, PC.finished] at hf
          refine ⟨⟨h.produced_zero, ?_, ?_, ?_, h.nothing_sent⟩, List.length_set _ _ _⟩
          · show 0 ≤ s.attempts + 1
            have := h.attempts_nonneg
            omega
          · show s.attempts + 1 ≤ finishedCount (s.workers.set i ⟨PC.done, w.rng⟩)
            have := h.attempts_bound
            omega
          · exact hpcs _ (Or.inr (Or.inr rfl))
        · rename_i hle
          have := h.attempts_nonneg
          omega
      · rename_i hpc
        rcases h.pcs w hmem with h1 | h1 | h1 <;> rw [hpc] at h1 <;> cases h1
      · rename_i p hpc
        rcases h.pcs w hmem with h1 | h1 | h1 <;> rw [hpc] at h1 <;> cases h1
      · rename_i p current hpc
        rcases h.pcs w hmem with h1 | h1 | h1 <;> rw [hpc] at h1 <;> cases h1
      · rename_i p hpc
        rcases h.pcs w hmem with h1 | h1 | h1 <;> rw [hpc] at h1 <;> cases h1
      · cases hstep
    · cases hstep
  | closer =>
    simp only [parStep] at hstep
    split at hstep
    · cases hstep
      exact ⟨⟨h.produced_zero, h.attempts_nonneg, h.attempts_bound, h.pcs, h.nothing_sent⟩, rfl⟩
    · cases hstep
  | receive =>
    simp only [parStep] at hstep
    split at hstep
    · cases hstep
    · split at hstep
      · rename_i p rest hch
        rw [h.nothing_sent.2.1] at hch
        cases hch
      · split at hstep
        · cases hstep
          exact ⟨⟨h.produced_zero, h.attempts_nonneg, h.attempts_bound, h.pcs, h.nothing_sent⟩,
            rfl⟩
        · cases hstep

theorem ParIdle.run_idle {L : Lib} {c : ParCfg} (sched : List Action) {s s' : ParState}
    (h : ParIdle s) (hT : 0 < c.target) (hlim : c.limit < 0)
    (hW : (s.workers.length : Int) < 2 ^ 62) (hrun : parRun L c s sched = some s') :
    ParIdle s' := by
  induction sched generalizing s with
  | nil =>
    simp only [parRun, Option.some.injEq] at hrun
    subst hrun
    exact h
  | cons a rest ih =>
    simp only [parRun] at hrun
    split at hrun
    · rename_i s1 hs1
      obtain ⟨h1, hl1⟩ := h.step_idle hT hlim hW hs1
      exact ih h1 (by rw [hl1]; exact hW) hrun
    · cases hrun

theorem ParIdle.init_idle (numCPU count : Int) (seeds : Nat → Rand) :
    ParIdle (parInit numCPU count seeds) := by
  refine ⟨rfl, le_refl _, ?_, ?_, rfl, rfl, rfl⟩
  · show (0 : Int) ≤ finishedCount (parInit numCPU count seeds).workers
    exact Int.natCast_nonneg _
  · intro w hw
    unfold parInit at hw
    simp only [List.mem_map] at hw
    obtain ⟨i, _, hi⟩ := hw
    rw [← hi]
    exact Or.inl rfl

/-- The budget `int64(count * 20)` is negative when `count` is within `2^31` of `2^63`. -/
theorem limit_negative (count : Int) (h1 : 2 ^ 63 - 2 ^ 31 ≤ count) (h2 : count < 2 ^ 63) :
    wrap64 (count * 20) < 0 := by
  unfold wrap64
  have e : count * 20 + 2 ^ 63 = (count * 20 + 2 ^ 63 - 10 * 2 ^ 64) + 2 ^ 64 * 10 := by ring
  rw [e, Int.add_mul_emod_self_left, Int.emod_eq_of_lt (by omega) (by omega)]
  omega

theorem workerCount_le (numCPU count : Int) (hpos : 0 < count) :
    0 ≤ workerCount numCPU count ∧ workerCount numCPU count ≤ count ∧
      (numCPU < 2 ^ 31 → workerCount numCPU count < 2 ^ 31) := by
  unfold workerCount
  simp only
  split <;> split <;> omega

/-- What the invariants give in a reachable state `s`: at most `count` points sent, the
received and the buffered points are the points sent, the buffer is empty once the caller has
returned. -/
theorem parRun_safe (L : Lib) (numCPU count : Int) (seeds : Nat → Rand)
    (sched : List Action) (s : ParState) (hpos : 0 < count)
    (hrange : count + workerCount numCPU count < 2 ^ 63 ∨ (count < 2 ^ 63 ∧ numCPU < 2 ^ 31))
    (hrun : parRun L (parCfg numCPU count) (parInit numCPU count seeds) sched = some s) :
    (s.sent.length : Int) ≤ count ∧ s.points ++ s.chan = s.sent ∧
      (s.returned = true → s.chan = []) := by
  obtain ⟨hw0, hw1, hw2⟩ := workerCount_le numCPU count hpos
  have hlen : ((parInit numCPU count seeds).workers.length : Int) = workerCount numCPU count := by
    unfold parInit
    simp only [List.length_map, List.length_range]
    exact Int.toNat_of_nonneg hw0
  by_cases hsmall : count + workerCount numCPU count < 2 ^ 63
  · obtain ⟨hinv, _⟩ := (ParInv.init_inv numCPU count seeds hpos).run_inv sched
      (by show count + ((parInit numCPU count seeds).workers.length : Int) < 2 ^ 63
          rw [hlen]; exact hsmall) hrun
    refine ⟨?_, hinv.chan_split, fun hr => (hinv.returned_closed hr).2⟩
    have := hinv.tickets
    have hmin : min s.produced (parCfg numCPU count).target ≤ count := min_le_right _ _
    have : (0 : Int) ≤ ticketCount (parCfg numCPU count).target s.workers :=
      Int.natCast_nonneg _
    omega
  · rcases hrange with hr | ⟨hint, hcpu⟩
    · exact absurd hr hsmall
    · have hidle := (ParIdle.init_idle numCPU count seeds).run_idle sched
        (show 0 < (parCfg numCPU count).target from hpos)
        (show (parCfg numCPU count).limit < 0 from
          limit_negative count (by have := hw2 hcpu; omega) hint)
        (by rw [hlen]; have := hw2 hcpu; omega) hrun
      obtain ⟨h1, h2, h3⟩ := hidle.nothing_sent
      rw [h1, h2, h3]
      refine ⟨?_, rfl, fun _ => rfl⟩
      simp only [List.length_nil]
      push_cast
      omega

/-- When the parallel engine returns a slice under a schedule, the schedule leads to a state
in which the caller has returned that slice. -/
theorem generateAndMapParallel_some (L : Lib) (numCPU count : Int) (seeds : Nat → Rand)
    (sched : List Action) (pts : List point)
    (h : generateAndMapParallel L numCPU seeds count sched = some pts) :
    ∃ s, parRun L (parCfg numCPU count) (parInit numCPU count seeds) sched = some s ∧
      s.returned = true ∧ s.points = pts := by
  unfold generateAndMapParallel at h
  split at h
  · cases h
  · split at h
    · rename_i s hs
      split at h
      · rename_i hr
        simp only [Option.some.injEq] at h
        exact ⟨s, hs, hr, h⟩
      · cases h
    · cases h

/-- C3: for every positive `count` (a 64-bit `int`), every number of CPUs (a 32-bit value),
every assignment of generators to workers and every interleaving `sched` of the atomic steps
of the goroutines, in the state `s` reached: at most `count` points have been sent on the
channel; the points received so far followed by the points still buffered are exactly the
points sent, in order and each once; and when the function returns under `sched`, the slice it
returns is exactly the list of points sent, so its length is at most `count`. -/
theorem parallel_sends_bounded (L : Lib) (numCPU count : Int) (seeds : Nat → Rand)
    (sched : List Action) (s : ParState)
    (hpos : 0 < count) (hint : count < 2 ^ 63) (hcpu : numCPU < 2 ^ 31)
    (hrun : parRun L (parCfg numCPU count) (parInit numCPU count seeds) sched = some s) :
    (s.sent.length : Int) ≤ count ∧ s.points ++ s.chan = s.sent ∧
      ∀ pts, generateAndMapParallel L numCPU seeds count sched = some pts →
        pts = s.sent ∧ (pts.length : Int) ≤ count := by
  have key := parRun_safe L numCPU count seeds sched s hpos (Or.inr ⟨hint, hcpu⟩) hrun
  refine ⟨key.1, key.2.1, ?_⟩
  intro pts hpts
  obtain ⟨s1, hs1, hr, hp⟩ := generateAndMapParallel_some L numCPU count seeds sched pts hpts
  rw [hrun, Option.some.injEq] at hs1
  subst hs1
  have hsplit := key.2.1
  rw [key.2.2 hr, List.append_nil, hp] at hsplit
  rw [hsplit]
  exact ⟨rfl, key.1⟩

/-- C3, witness: one worker that produces one point, after which the caller returns it. -/
theorem parallel_sends_bounded_witness :
    ((0 : Int) < 1 ∧ (1 : Int) < 2 ^ 63 ∧ (1 : Int) < 2 ^ 31) ∧
    (generateAndMapParallel sampleLib 1 (fun _ => alternating half F64.zero) 1
        sampleSchedule).isSome = true ∧
    ∃ s, parRun sampleLib (parCfg 1 1)
        (parInit 1 1 (fun _ => alternating half F64.zero)) sampleSchedule = some s ∧
      ((s.sent.length : Int) ≤ 1 ∧ s.points ++ s.chan = s.sent ∧
      ∀ pts, generateAndMapParallel sampleLib 1 (fun _ => alternating half F64.zero) 1
          sampleSchedule = some pts →
        pts = s.sent ∧ (pts.length : Int) ≤ 1) := by
  have hsome : (parRun sampleLib (parCfg 1 1)
      (parInit 1 1 (fun _ => alternating half F64.zero)) sampleSchedule).isSome = true := by
    decide!
  obtain ⟨s, hs⟩ := Option.isSome_iff_exists.mp hsome
  exact ⟨⟨by decide, by decide, by decide⟩, by decide!, s, hs,
    parallel_sends_bounded sampleLib 1 1 (fun _ => alternating half F64.zero)
      sampleSchedule s (by decide) (by decide) (by decide) hs⟩

/-! ## The request handler -/

/-- The result of `normalizeCount` is between 100 and 1,000,000,000, and it is at most the
request when the request is at least 100. -/
theorem normalizeCount_range (v : Int) :
    100 ≤ normalizeCount v ∧ normalizeCount v ≤ 1000000000 ∧
      (100 ≤ v → normalizeCount v ≤ v) := by
  unfold normalizeCount
  split
  · omega
  · split
    · omega
    · split <;> omega

/-- In sequential mode every POST request with a decodable body is answered with a response. -/
theorem processCompute_sequential_answers (L : Lib) (env : RunEnv) (req : computeRequest) :
    ∃ resp, processCompute L env ⟨"POST", some req⟩ false = some (Reply.json resp) := by
  obtain ⟨hn1, hn2, _⟩ := normalizeCount_range req.Count
  have hseq : generateAndMapSequential L env.rng (normalizeCount req.Count)
      = some (seqRun L env.rng (normalizeCount req.Count)).points := by
    unfold generateAndMapSequential
    rw [makeSlicePanics_small _ (by omega) (by omega)]
    rfl
  refine ⟨{ Mode := modeName false, DurationMs := env.durationMs,
             Points := (seqRun L env.rng (normalizeCount req.Count)).points,
             Count := (seqRun L env.rng (normalizeCount req.Count)).points.length,
             Requested := req.Count }, ?_⟩
  unfold processCompute
  rw [if_neg (fun h => h rfl)]
  simp only [Bool.false_eq_true, if_false, hseq]

/-- C5, counterexample: a POST request for one point, served by the sequential engine with a
generator whose candidates are all mapped, is answered with `count = 100` and
`requested = 1`. -/
theorem processCompute_count_exceeds_requested :
    ∃ resp, processCompute sampleLib sampleEnv sampleRequest false = some (Reply.json resp) ∧
      resp.Count = 100 ∧ resp.Requested = 1 ∧ ¬ (resp.Count ≤ resp.Requested) := by
  have h : ((processCompute sampleLib sampleEnv sampleRequest false).bind Reply.response?).map
      (fun r => (r.Count, r.Requested)) = some (100, 1) := by decide!
  cases hp : processCompute sampleLib sampleEnv sampleRequest false with
  | none => rw [hp] at h; cases h
  | some rep =>
    cases rep with
    | error msg status => rw [hp] at h; cases h
    | json resp =>
      rw [hp] at h
      simp only [Option.bind, Reply.response?, Option.map, Option.some.injEq,
        Prod.mk.injEq] at h
      exact ⟨resp, rfl, h.1, h.2, by rw [h.1, h.2]; decide⟩

/-- C5, as the code has it: in either mode and for every request count, a response of
`processCompute` has `Count = len(Points)` and `Count ≤ normalizeCount(Requested)`, the count
the engine was asked for; hence `Count ≤ Requested` whenever `Requested ≥ 100`. -/
theorem processCompute_count_le_normalized (L : Lib) (env : RunEnv) (r : HttpRequest)
    (parallel : Bool) (resp : computeResponse)
    (h : processCompute L env r parallel = some (Reply.json resp)) :
    resp.Count = resp.Points.length ∧ resp.Count ≤ normalizeCount resp.Requested ∧
      (100 ≤ resp.Requested → resp.Count ≤ resp.Requested) := by
  unfold processCompute at h
  split at h
  · cases h
  · split at h
    · cases h
    · rename_i req hbody
      simp only at h
      obtain ⟨hn1, hn2, hn3⟩ := normalizeCount_range req.Count
      split at h
      · cases h
      · rename_i points hres
        simp only [Option.some.injEq, Reply.json.injEq] at h
        subst h
        have hlen : (points.length : Int) ≤ normalizeCount req.Count := by
          cases parallel with
          | true =>
            simp only [if_true] at hres
            obtain ⟨s, hs, hr, hp⟩ := generateAndMapParallel_some L _ _ _ _ _ hres
            obtain ⟨hw0, hw1, hw2⟩ :=
              workerCount_le env.numCPU (normalizeCount req.Count) (by omega)
            have key := parRun_safe L env.numCPU (normalizeCount req.Count) env.seeds env.sched s
              (by omega) (Or.inl (by omega)) hs
            have hsplit := key.2.1
            rw [key.2.2 hr, List.append_nil, hp] at hsplit
            rw [hsplit]
            exact key.1
          | false =>
            simp only [Bool.false_eq_true, if_false] at hres
            rw [generateAndMapSequential_some L _ _ _ hres]
            unfold seqRun
            apply seqLoop_length_le
            simp only [List.length_nil]
            push_cast
            omega
        refine ⟨rfl, hlen, fun h100 => ?_⟩
        have := hn3 h100
        show (points.length : Int) ≤ req.Count
        omega

/-- C5, witness: the request of the counterexample. -/
theorem processCompute_count_le_normalized_witness :
    ∃ resp, processCompute sampleLib sampleEnv sampleRequest false = some (Reply.json resp) ∧
      (resp.Count = resp.Points.length ∧ resp.Count ≤ normalizeCount resp.Requested ∧
        (100 ≤ resp.Requested → resp.Count ≤ resp.Requested)) := by
  have h : ((processCompute sampleLib sampleEnv sampleRequest false).bind
      Reply.response?).isSome = true := by decide!
  cases hp : processCompute sampleLib sampleEnv sampleRequest false with
  | none => rw [hp] at h; cases h
  | some rep =>
    cases rep with
    | error msg status => rw [hp] at h; cases h
    | json resp =>
      exact ⟨resp, rfl,
        processCompute_count_le_normalized sampleLib sampleEnv sampleRequest false resp hp⟩

end Conformal
